import Mathlib

/-!
Verification development for the Kyobo-to-Notion collection script
(src/kyobo_to_notion.py).  The pure string-processing and record-merging
logic of the script is embedded shallowly over `List Char`; the network,
DOM-query and JSON-parsing collaborators (requests, BeautifulSoup,
json.loads, playwright) are abstracted as explicit inputs, exactly at the
boundary where the script consumes their results.  Each definition carries
a comment naming the Python function and lines it embeds.
-/

namespace Kyobo

/-- Model of the Python whitespace class used by the script
(`\s` in `re`, and `str.strip`).  The script only ever meets ASCII
whitespace; the rare extra Unicode space characters accepted by Python
are outside the model. -/
def isWs (c : Char) : Bool :=
  c = ' ' || c = '\t' || c = '\n' || c = '\r' || c = '\x0b' || c = '\x0c'

/-- ASCII decimal digit, the `\d` class of the patterns used by the
script and `str.isdigit` on the inputs the script meets. -/
def isDigitC (c : Char) : Bool := '0' ≤ c && c ≤ '9'

/-- State-machine embedding of `re.sub(r"\s+", " ", t)`: every maximal
run of whitespace becomes a single space.  The flag records whether the
previous character belonged to a whitespace run. -/
def collapseAux : Bool → List Char → List Char
  | _, [] => []
  | inWs, c :: rest =>
    if isWs c then
      if inWs then collapseAux true rest else ' ' :: collapseAux true rest
    else c :: collapseAux false rest

/-- `re.sub(r"\s+", " ", t)`. -/
def collapseRuns (l : List Char) : List Char := collapseAux false l

/-- Remove trailing whitespace (right half of `str.strip`). -/
def dropTrailingWs : List Char → List Char
  | [] => []
  | c :: rest =>
    let r := dropTrailingWs rest
    if r = [] ∧ isWs c then [] else c :: r

/-- `str.strip()`: drop leading then trailing whitespace. -/
def stripWs (l : List Char) : List Char :=
  dropTrailingWs (l.dropWhile isWs)

/-- Boolean substring test: `pat in s` for Python strings. -/
def containsSub (pat : List Char) : List Char → Bool
  | [] => pat.isPrefixOf []
  | c :: rest => pat.isPrefixOf (c :: rest) || containsSub pat rest

/-- Case-insensitive literal match: consumes `pat` (given lowercase)
from the front of `l`, comparing through `Char.toLower`, returning the
remainder on success. -/
def stripPreCI : List Char → List Char → Option (List Char)
  | [], l => some l
  | _ :: _, [] => none
  | p :: ps, c :: cs => if c.toLower = p then stripPreCI ps cs else none

/-- Case-sensitive literal match, returning the remainder on success. -/
def stripPre : List Char → List Char → Option (List Char)
  | [], l => some l
  | _ :: _, [] => none
  | p :: ps, c :: cs => if c = p then stripPre ps cs else none

/-! ### clean_book_title (src/kyobo_to_notion.py lines 147-154) -/

/-- The dash class `[-–—]` of the brand-stripping pattern. -/
def isDash (c : Char) : Bool := c = '-' || c = '–' || c = '—'

/-- Does `l` consist of whitespace only (`\s*$`)? -/
def allWs (l : List Char) : Bool := l.all isWs

/-- Matches the tail `(교보문고|Kyobo\s*Book\s*Centre)\s*$` of the
brand-stripping pattern (case-insensitive, as `re.I` on the source
pattern).  The greedy `\s*` gaps are safe to consume eagerly because no
alternative of the brand starts with whitespace. -/
def brandTail (l : List Char) : Bool :=
  match stripPreCI ['교', '보', '문', '고'] l with
  | some r => allWs r
  | none =>
    match stripPreCI ['k', 'y', 'o', 'b', 'o'] l with
    | none => false
    | some r1 =>
      match stripPreCI ['b', 'o', 'o', 'k'] (r1.dropWhile isWs) with
      | none => false
      | some r2 =>
        match stripPreCI ['c', 'e', 'n', 't', 'r', 'e'] (r2.dropWhile isWs) with
        | none => false
        | some r3 => allWs r3

/-- Does the whole list match
`\s*[-–—]\s*(교보문고|Kyobo\s*Book\s*Centre)\s*$`?
Eager whitespace consumption is again exact: the dash characters and the
first character of each brand alternative are not whitespace. -/
def isBrandSuffix (l : List Char) : Bool :=
  match l.dropWhile isWs with
  | [] => false
  | c :: rest => isDash c && brandTail (rest.dropWhile isWs)

/-- Scan for the leftmost position whose suffix matches the brand
pattern; return the prefix before it when found.  This is exactly what
`re.sub(pattern, "", t)` does for a `$`-anchored pattern: the only
replaced match is the leftmost (hence longest) matching suffix. -/
def brandStripAux : List Char → Option (List Char)
  | [] => none
  | c :: rest =>
    if isBrandSuffix (c :: rest) then some []
    else
      match brandStripAux rest with
      | some pre => some (c :: pre)
      | none => none

/-- `re.sub(r"\s*[-–—]\s*(교보문고|Kyobo\s*Book\s*Centre)\s*$", "", t, flags=re.I)`. -/
def brandStrip (l : List Char) : List Char :=
  match brandStripAux l with
  | some pre => pre
  | none => l

/-- Is the three-character separator `" | "` present (`" | " in t`)? -/
def hasPipeSep : List Char → Bool
  | ' ' :: '|' :: ' ' :: _ => true
  | _ :: rest => hasPipeSep rest
  | [] => false

/-- Everything before the first occurrence of `" | "`
(`t.split(" | ", 1)[0]`; total, returns the whole list when absent). -/
def takeBeforePipe : List Char → List Char
  | ' ' :: '|' :: ' ' :: _ => []
  | c :: rest => c :: takeBeforePipe rest
  | [] => []

/-- `clean_book_title` (lines 147-154) on a present string: collapse
whitespace and strip; keep only the segment before the first `" | "`
(then strip); strip a trailing separator-plus-brand suffix.  The Python
guard `if not t: return t` sends the empty string through unchanged,
which coincides with what the pipeline does to it. -/
def cleanL (t : List Char) : List Char :=
  if t = [] then t
  else
    let t1 := stripWs (collapseRuns t)
    let t2 := if hasPipeSep t1 then stripWs (takeBeforePipe t1) else t1
    brandStrip t2

/-! ### _norm and _sim (lines 122-131) -/

/-- `_norm`: `re.sub(r"\s+", " ", s.lower()).strip()`.  `str.lower` is
modelled by `Char.toLower` (ASCII case mapping; the Korean titles the
script meets are unaffected by either). -/
def normS (s : List Char) : List Char :=
  stripWs (collapseRuns (s.map Char.toLower))

/-- The window list `[a[i:i+2] for i in range(max(len(a)-1, 1))]` of
`_sim`.  With `Nat` subtraction `max (len - 1) 1` agrees with the Python
`max(len-1, 1)` on every length. -/
def windows (l : List Char) : List (List Char) :=
  (List.range (max (l.length - 1) 1)).map fun i => (l.drop i).take 2

/-- Number of distinct windows (`len(A)` for the Python set `A`). -/
def windowCard (l : List Char) : Nat := (windows l).dedup.length

/-- Number of distinct windows of `a` that are windows of `b`
(`len(A & B)`). -/
def windowInter (a b : List Char) : Nat :=
  ((windows a).dedup.filter fun w => w ∈ windows b).length

/-- `_sim` (lines 125-131).  The score is an exact rational; the
floating-point division of the source is exact enough that comparisons
between scores of realistic titles agree with the rational order.  The
`if not A` branch of the source is kept although `A` is never empty. -/
def simS (a b : List Char) : ℚ :=
  if windows a = [] then 0 else (windowInter a b : ℚ) / (windowCard a : ℚ)

/-! ### JSON values

`json.loads` output is modelled by `JVal`.  JSON numbers are modelled as
integers (the script never produces nor needs fractional page counts;
floating-point payloads are outside the model).  A Python `dict` from
`json.loads` has unique keys, so `jobj` association lists are read
first-match. -/

inductive JVal where
  | jnull : JVal
  | jbool : Bool → JVal
  | jnum : Int → JVal
  | jstr : List Char → JVal
  | jarr : List JVal → JVal
  | jobj : List (List Char × JVal) → JVal

/-- Python truthiness of a parsed JSON value (or `None` for `jnull`). -/
def truthy : JVal → Bool
  | .jnull => false
  | .jbool b => b
  | .jnum n => n != 0
  | .jstr s => !s.isEmpty
  | .jarr l => !l.isEmpty
  | .jobj l => !l.isEmpty

/-- `x or y` on Python values. -/
def pyOr (a b : JVal) : JVal := if truthy a then a else b

/-- `d.get(k)`: the value under `k`, or `None` when absent (JSON null
and an absent key both come out as `jnull`, exactly as both come out as
`None` in Python). -/
def jget (o : List (List Char × JVal)) (k : List Char) : JVal :=
  match o.find? fun p => p.1 = k with
  | some p => p.2
  | none => .jnull

/-! ### _jsonld_extract_all (lines 177-216)

Input: the per-block results of `json.loads` on each
`<script type="application/ld+json">` payload of the fetched markup —
`none` when the payload fails to parse (the `except` of lines 207-208
swallows the error and moves to the next block).  A `TypeError` raised
by the `", ".join(...)` inside the `try` (a non-string author entry) is
also swallowed by that same `except`; the assignments made earlier in
the block survive, so item processing carries a crash flag. -/

/-- Accumulator for the six local variables of `_jsonld_extract_all`
(line 178), and the shape of its returned dict (lines 209-216). -/
structure JsonLdRec where
  title : JVal
  author : JVal
  publisher : JVal
  pages : JVal
  genre : JVal
  isbn : JVal

/-- All-`None` starting state (line 178). -/
def jsonLdInit : JsonLdRec :=
  ⟨.jnull, .jnull, .jnull, .jnull, .jnull, .jnull⟩

/-- One entry of the author join
`[aa.get("name") if isinstance(aa, dict) else str(aa) for aa in a]`
as consumed by `", ".join`: `none` means the entry is not a string and
the join raises `TypeError`.  For non-dict entries `str(aa)` is always
a string; the model spells it out for the scalar shapes (container
entries would render via `repr`, which the join accepts as well — the
exact renderings of nested containers are abstracted to their content). -/
def authorElem : JVal → Option (List Char)
  | .jobj o =>
    match jget o "name".data with
    | .jstr s => some s
    | _ => none
  | .jstr s => some s
  | .jnum n => some (toString n).data
  | .jbool b => some (if b then "True".data else "False".data)
  | .jnull => some "None".data
  | .jarr l => some ('[' :: (toString l.length).data ++ [']'])

/-- `", ".join(entries)`: fails when any entry fails. -/
def joinAuthors (l : List JVal) : Option (List Char) :=
  match l.mapM authorElem with
  | some parts => some (List.intercalate ", ".data parts)
  | none => none

/-- `it.get("@type") in ("Book", "Product")` (line 188). -/
def isBookType : JVal → Bool
  | .jstr t => t = "Book".data || t = "Product".data
  | _ => false

/-- Processing of one item `it` of a parsed block (lines 185-206).
Returns the updated accumulator and `true` when the author join raised
(in which case the title assignment of line 189 — made before the
raise — is kept and the rest of the block is abandoned). -/
def processItem (st : JsonLdRec) : JVal → JsonLdRec × Bool
  | .jobj o =>
    if isBookType (jget o "@type".data) then
      let title := pyOr st.title (jget o "name".data)
      let aRes : Option JVal :=
        if truthy st.author then some st.author
        else
          match jget o "author".data with
          | .jarr (x :: xs) =>
            match joinAuthors (x :: xs) with
            | some s => some (.jstr s)
            | none => none
          | .jobj ao => some (jget ao "name".data)
          | .jstr s => some (.jstr s)
          | _ => some st.author
      match aRes with
      | none => ({ st with title := title }, true)
      | some author =>
        let publisher :=
          if truthy st.publisher then st.publisher
          else
            match jget o "publisher".data with
            | .jobj po => jget po "name".data
            | .jstr s => .jstr s
            | _ => st.publisher
        ({ title := title
           author := author
           publisher := publisher
           pages := pyOr st.pages (jget o "numberOfPages".data)
           genre := pyOr st.genre (jget o "genre".data)
           isbn := pyOr st.isbn (jget o "isbn".data) }, false)
    else (st, false)
  | _ => (st, false)

/-- The item loop (lines 184-206): a raise abandons the remaining items
of the same block but keeps the state reached so far. -/
def processItems (st : JsonLdRec) : List JVal → JsonLdRec
  | [] => st
  | it :: rest =>
    let r := processItem st it
    if r.2 then r.1 else processItems r.1 rest

/-- `arr = data if isinstance(data, list) else [data]` (line 184). -/
def toItems : JVal → List JVal
  | .jarr l => l
  | v => [v]

/-- The block loop (lines 179-208): an unparsable block contributes
nothing. -/
def processBlocks (st : JsonLdRec) : List (Option JVal) → JsonLdRec
  | [] => st
  | none :: rest => processBlocks st rest
  | some d :: rest => processBlocks (processItems st (toItems d)) rest

/-- `clean_book_title` applied to a JSON value (line 210).  `None` and
the falsy empty string pass through the Python guard unchanged; a
truthy non-string would raise `TypeError` in Python (line 150, outside
any handler) — such values are left unchanged here and are not relied
on by any theorem. -/
def cleanTitleJ : JVal → JVal
  | .jstr s => .jstr (cleanL s)
  | v => v

/-- `re.sub(r"\s+", " ", x).strip() if x else None` (lines 211, 212,
214).  Falsy values become `None`; a truthy non-string would raise in
Python and is left unchanged here (not relied on by any theorem). -/
def normTextJ (v : JVal) : JVal :=
  if truthy v then
    match v with
    | .jstr s => .jstr (stripWs (collapseRuns s))
    | x => x
  else .jnull

/-- Digits-to-number for the `int(pages)` coercion. -/
def digitsToNat (s : List Char) : Nat :=
  s.foldl (fun acc c => acc * 10 + (c.toNat - 48)) 0

/-- `int(pages) if isinstance(pages, str) and pages.isdigit() else pages`
(line 213).  Any other value — including a negative or non-integral
number, or a non-digit string — is passed through verbatim. -/
def pagesCoerce : JVal → JVal
  | .jstr s => if !s.isEmpty && s.all isDigitC then .jnum (digitsToNat s) else .jstr s
  | v => v

/-- `_jsonld_extract_all` (lines 177-216) as a function of the parsed
block list. -/
def jsonldExtractAll (blocks : List (Option JVal)) : JsonLdRec :=
  let st := processBlocks jsonLdInit blocks
  { title := cleanTitleJ st.title
    author := normTextJ st.author
    publisher := normTextJ st.publisher
    pages := pagesCoerce st.pages
    genre := normTextJ st.genre
    isbn := st.isbn }

/-! ### extract_title_from_body_html and fetch_detail_static (lines 156-264)

The BeautifulSoup selector queries and the two page-level regexes are
DOM collaborators; a `Markup` value records their results on the
fetched page, which is exactly the data the function body consumes. -/

/-- Collaborator results on one fetched detail page. -/
structure Markup where
  /-- Per `<script type="application/ld+json">` block, the `json.loads`
  result (`none` = malformed payload). -/
  jsonldBlocks : List (Option JVal)
  /-- Per selector of the list at lines 158-167, in order, the
  `soup.select_one(sel)` match rendered by `node.get_text(strip=True)`
  (`none` = no node). -/
  selectorTexts : List (Option (List Char))
  /-- The `og:image` content captured by the regex of line 219. The
  `([^"]+)` group makes a captured value nonempty, but the model keeps
  the explicit `if cov` test of line 253. -/
  ogImage : Option (List Char)
  /-- The number captured by `(\d{1,5})\s*(쪽|페이지)` on the
  whitespace-collapsed page text (line 258). -/
  pagesHit : Option Nat

/-- `extract_title_from_body_html` (lines 156-175): first selector hit
whose cleaned text is nonempty, at most 100 characters, and free of the
brand name. -/
def extract_title_from_body (sels : List (Option (List Char))) : Option (List Char) :=
  match sels with
  | [] => none
  | none :: rest => extract_title_from_body rest
  | some txt :: rest =>
    let cand := cleanL txt
    if !cand.isEmpty ∧ cand.length ≤ 100 ∧ containsSub "교보문고".data cand = false then
      some cand
    else extract_title_from_body rest

/-- The `info` dict built at lines 228-238 (and 271-281). -/
structure Info where
  kyobo_id : JVal
  detail_url : JVal
  title : JVal
  cover : JVal
  author : JVal
  publisher : JVal
  pages : JVal
  genre : JVal
  isbn : JVal

/-- `f"{KYOBO_DETAIL}/{kyobo_id}"` (line 223). -/
def detailUrlOf (kid : List Char) : List Char :=
  "https://product.kyobobook.co.kr/detail/".data ++ kid

/-- Stage 1 of `fetch_detail_static` (lines 228-244): the fresh `info`
dict of lines 228-238 after the JSON-LD merge loop
`for k, v in jd.items(): if v and not info.get(k): info[k] = v` — the
six merged fields are blank beforehand, so each receives the JSON-LD
value exactly when that value is truthy. -/
def mergeJsonLd (kid : List Char) (jd : JsonLdRec) : Info :=
  { kyobo_id := .jstr kid
    detail_url := .jstr (detailUrlOf kid)
    title := if truthy jd.title then jd.title else .jnull
    cover := .jnull
    author := if truthy jd.author then jd.author else .jnull
    publisher := if truthy jd.publisher then jd.publisher else .jnull
    pages := if truthy jd.pages then jd.pages else .jnull
    genre := if truthy jd.genre then jd.genre else .jnull
    isbn := if truthy jd.isbn then jd.isbn else .jnull }

/-- Stage 2 (lines 247-249): `if body_title: info["title"] = body_title`
— an unconditional overwrite of the title when the body extraction
succeeded (its result is nonempty, hence truthy). -/
def applyBodyTitle (tb : Option (List Char)) (info : Info) : Info :=
  match tb with
  | some bt => { info with title := .jstr bt }
  | none => info

/-- Stage 3 (lines 252-254): `if cov and not info["cover"]`. -/
def applyOgCover (og : Option (List Char)) (info : Info) : Info :=
  match og with
  | some cov =>
    if !cov.isEmpty ∧ ¬ truthy info.cover then { info with cover := .jstr cov } else info
  | none => info

/-- Stage 4 (lines 257-260): `if not light and not info["pages"]`,
then assign the regex capture when it exists. -/
def applyPagesBackup (light : Bool) (ph : Option Nat) (info : Info) : Info :=
  if light = false ∧ ¬ truthy info.pages then
    match ph with
    | some n => { info with pages := .jnum n }
    | none => info
  else info

/-- Lines 262-263: `if info["title"]: info["title"] = clean_book_title(...)`. -/
def finalTitleClean (info : Info) : Info :=
  if truthy info.title then { info with title := cleanTitleJ info.title } else info

/-- `fetch_detail_static` (lines 222-264) after the HTTP fetch: the
four sequential mutation stages of the `info` dict, then the final
title cleaning. -/
def fetch_detail_static (kid : List Char) (m : Markup) (light : Bool) : Info :=
  finalTitleClean
    (applyPagesBackup light m.pagesHit
      (applyOgCover m.ogImage
        (applyBodyTitle (extract_title_from_body m.selectorTexts)
          (mergeJsonLd kid (jsonldExtractAll m.jsonldBlocks)))))

/-- `fetch_detail_browser` (lines 266-357).  The whole playwright
session (lines 283-351) sits inside one `try`; its observable effect is
the state of the `info` dict when the block exits, normally (`ok`) or
through the swallowed exception of lines 352-353 (`error`, carrying
whatever fields had been assigned before the raise — all blank when the
navigation itself failed).  `kyobo_id` and `detail_url` are set at
lines 272-273 and never reassigned, so they hold their values on every
outcome.  The final title cleaning of lines 355-356 runs on either
outcome. -/
def fetch_detail_browser (kid : List Char) (attempt : Except Info Info) : Info :=
  let st :=
    match attempt with
    | .ok i => i
    | .error raisedState => raisedState
  let info := { st with kyobo_id := JVal.jstr kid, detail_url := JVal.jstr (detailUrlOf kid) }
  if truthy info.title then { info with title := cleanTitleJ info.title } else info

/-- The merge loop of lines 365-367: every truthy field of the browser
result fills a still-falsy field of the static result.  `kyobo_id` and
`detail_url` take part in the loop like every other key. -/
def mergeAbsent (info info2 : Info) : Info :=
  { kyobo_id := if truthy info2.kyobo_id ∧ ¬ truthy info.kyobo_id then info2.kyobo_id else info.kyobo_id
    detail_url := if truthy info2.detail_url ∧ ¬ truthy info.detail_url then info2.detail_url else info.detail_url
    title := if truthy info2.title ∧ ¬ truthy info.title then info2.title else info.title
    cover := if truthy info2.cover ∧ ¬ truthy info.cover then info2.cover else info.cover
    author := if truthy info2.author ∧ ¬ truthy info.author then info2.author else info.author
    publisher := if truthy info2.publisher ∧ ¬ truthy info.publisher then info2.publisher else info.publisher
    pages := if truthy info2.pages ∧ ¬ truthy info.pages then info2.pages else info.pages
    genre := if truthy info2.genre ∧ ¬ truthy info.genre then info2.genre else info.genre
    isbn := if truthy info2.isbn ∧ ¬ truthy info.isbn then info2.isbn else info.isbn }

/-- `fetch_detail` (lines 359-372): escalate to the browser fetch
exactly when none of title, author, publisher, cover were populated by
the static pass. -/
def fetch_detail (kid : List Char) (m : Markup) (attempt : Except Info Info) (light : Bool) : Info :=
  let info := fetch_detail_static kid m light
  if truthy info.title ∨ truthy info.author ∨ truthy info.publisher ∨ truthy info.cover then
    info
  else mergeAbsent info (fetch_detail_browser kid attempt)

/-! ### extract_id and search_candidates_by_title (lines 107-120) -/

/-- `re.search(r"(S\d{6,})", s)`: scan left to right; at an `S`, take
the maximal digit run and succeed when it has at least six digits.
Backtracking cannot shorten a failed run below six, so moving one
character forward is exactly what the engine does. -/
def findSId : List Char → Option (List Char)
  | [] => none
  | c :: rest =>
    if c = 'S' then
      let ds := rest.takeWhile isDigitC
      if 6 ≤ ds.length then some ('S' :: ds) else findSId rest
    else findSId rest

/-- `extract_id` (lines 107-111).  The `if not s` guard returns `None`
for the empty string, which agrees with the search on it. -/
def extract_id (s : List Char) : Option (List Char) := findSId s

/-- `re.findall(r"/detail/(S\d{6,})", html)`: leftmost matches, scanning
resumes after each match. -/
def findAllDetailIds : List Char → List (List Char)
  | [] => []
  | c :: rest =>
    match h : stripPre "/detail/S".data (c :: rest) with
    | some r1 =>
      let ds := r1.takeWhile isDigitC
      if 6 ≤ ds.length then ('S' :: ds) :: findAllDetailIds (r1.drop ds.length)
      else findAllDetailIds rest
    | none => findAllDetailIds rest
termination_by l => l.length
decreasing_by
  · have H : ∀ (pat l₂ r : List Char), stripPre pat l₂ = some r →
        l₂.length = pat.length + r.length := by
      intro pat
      induction pat with
      | nil =>
        intro l₂ r h2
        simp only [stripPre, Option.some.injEq] at h2
        subst h2; simp
      | cons p ps ih =>
        intro l₂ r h2
        cases l₂ with
        | nil => simp [stripPre] at h2
        | cons c cs =>
          simp only [stripPre] at h2
          split at h2
          · have := ih _ _ h2; simp [this]; omega
          · exact absurd h2 (by simp)
    have := H _ _ _ h
    simp only [List.length_drop, List.length_cons] at *
    omega
  · simp
  · simp

/-- `list(dict.fromkeys(xs))`: drop duplicates, keeping the first
occurrence of each element. -/
def dedupFirst (seen : List (List Char)) : List (List Char) → List (List Char)
  | [] => []
  | x :: rest =>
    if x ∈ seen then dedupFirst seen rest else x :: dedupFirst (x :: seen) rest

/-- `search_candidates_by_title` (lines 113-120) as a function of the
two fetched search-result pages (desktop, then the mobile backup used
only when the desktop page yields no identifier). -/
def search_candidates_by_title (desktopHtml mobileHtml : List Char) : List (List Char) :=
  let ids := dedupFirst [] (findAllDetailIds desktopHtml)
  if !ids.isEmpty then ids
  else dedupFirst [] (findAllDetailIds mobileHtml)

/-! ### choose_best_id (lines 133-144) -/

/-- The score of one candidate (lines 139-141).  `previewTitle kid`
models `fetch_detail(kid, light=True).get("title")` — `None` or a
string in every execution that reaches the scorer.
`brief.get("title") or ""` turns `None` into the empty string. -/
def scoreOf (key : List Char) (previewTitle : List Char → Option (List Char))
    (kid : List Char) : ℚ :=
  simS key (normS ((previewTitle kid).getD []))

/-- The scoring loop of lines 137-143. -/
def bestLoop (key : List Char) (previewTitle : List Char → Option (List Char)) :
    List (List Char) → Option (List Char) → ℚ → Option (List Char) × ℚ
  | [], best, bestScore => (best, bestScore)
  | kid :: rest, best, bestScore =>
    let score := scoreOf key previewTitle kid
    if bestScore < score then bestLoop key previewTitle rest (some kid) score
    else bestLoop key previewTitle rest best bestScore

/-- `choose_best_id` (lines 133-144): examine the first five
candidates, keep the strictly best score, first seen wins ties. -/
def choose_best_id (previewTitle : List Char → Option (List Char))
    (title : List Char) (ids : List (List Char)) : Option (List Char) :=
  if ids.isEmpty then none
  else (bestLoop (normS title) previewTitle (ids.take 5) none (-1)).1

/-! ### map_genre (lines 375-384) -/

/-- `keys.split(",")` (Python `str.split` on a separator: the empty
string splits to one empty piece). -/
def splitComma : List Char → List (List Char)
  | [] => [[]]
  | ',' :: rest => [] :: splitComma rest
  | c :: rest =>
    match splitComma rest with
    | p :: ps => (c :: p) :: ps
    | [] => [[c]]

/-- The inner keyword loop of lines 380-383: some comma-separated
keyword, stripped and lowercased, is nonempty and occurs in `R`.
Returning `val` at the first matching keyword is observationally the
same as testing the whole rule. -/
def ruleHit (R keys : List Char) : Bool :=
  (splitComma keys).any fun kw =>
    let k := (stripWs kw).map Char.toLower
    !k.isEmpty && containsSub k R

/-- The rule loop of lines 379-384 over the insertion-ordered
`GENRE_MAP` items. -/
def mgLoop (R : List Char) : List (List Char × List Char) → Option (List Char)
  | [] => none
  | (keys, val) :: rest => if ruleHit R keys then some val else mgLoop R rest

/-- `map_genre` (lines 375-384). -/
def map_genre (gm : List (List Char × List Char)) (raw : List Char) : Option (List Char) :=
  if raw.isEmpty then none else mgLoop (normS raw) gm

/-- `map_genre` on the Python value `info.get("genre") or
info.get("title")` of line 426.  Falsy values hit the `if not raw`
guard; a truthy non-string would raise `TypeError` inside `_norm` (not
relied on by any theorem). -/
def mapGenreJ (gm : List (List Char × List Char)) : JVal → Option (List Char)
  | .jstr s => map_genre gm s
  | _ => none

/-! ### build_value and update_page (lines 49-70, 387-441)

Only the property patch that `update_page` assembles is modelled — the
two `nc.pages.update` / `nc.pages.retrieve` calls and the cover patch
are external writes taking the assembled data verbatim. -/

/-- The Notion property types `build_value` distinguishes;
`other` stands for every unrecognized declared type. -/
inductive PType where
  | title | rich_text | url | number | select | multi_select | checkbox | other
deriving DecidableEq

/-- `str(v)` for the scalar shapes the script meets; container values
are abbreviated to their sizes (no theorem relies on the rendering of a
container). -/
def pyStrTop : JVal → List Char
  | .jstr s => s
  | .jnum n => (toString n).data
  | .jbool b => if b then "True".data else "False".data
  | .jnull => "None".data
  | .jarr l => '[' :: (toString l.length).data ++ [']']
  | .jobj l => (Char.ofNat 123) :: (toString l.length).data ++ [Char.ofNat 125]

/-- `int(v)` returning `None` on `ValueError`/`TypeError`: accepts
numbers, booleans, and digit strings with optional sign and surrounding
whitespace. -/
def pyToInt : JVal → Option Int
  | .jnum n => some n
  | .jbool b => some (if b then 1 else 0)
  | .jstr s =>
    let t := stripWs s
    match t with
    | '+' :: ds => if !ds.isEmpty && ds.all isDigitC then some (digitsToNat ds) else none
    | '-' :: ds => if !ds.isEmpty && ds.all isDigitC then some (-(digitsToNat ds : Int)) else none
    | ds => if !ds.isEmpty && ds.all isDigitC then some (digitsToNat ds) else none
  | _ => none

/-- A shaped Notion property value, one constructor per shape that
`build_value` can emit (lines 52-69). -/
inductive PatchVal where
  | pvTitle : List Char → PatchVal
  | pvRich : List Char → PatchVal
  | pvUrl : List Char → PatchVal
  | pvNumber : Int → PatchVal
  | pvSelect : List Char → PatchVal
  | pvMulti : List (List Char) → PatchVal
  | pvCheckbox : Bool → PatchVal
deriving DecidableEq

/-- `[s.strip() for s in str(v).split(",") if s.strip()]` (line 66). -/
def multiItems (s : List Char) : List (List Char) :=
  ((splitComma s).map stripWs).filter fun x => !x.isEmpty

/-- `build_value` (lines 49-70). -/
def build_value : PType → JVal → Option PatchVal
  | _, .jnull => none
  | .title, v => some (.pvTitle (pyStrTop v))
  | .rich_text, v => some (.pvRich (pyStrTop v))
  | .url, v => some (.pvUrl (pyStrTop v))
  | .number, v => (pyToInt v).map .pvNumber
  | .select, v => some (.pvSelect (pyStrTop v))
  | .multi_select, v => some (.pvMulti (multiItems (pyStrTop v)))
  | .checkbox, v => some (.pvCheckbox (truthy v))
  | .other, _ => none

/-- `page_prop_type` (lines 45-47) over the retrieved property table
(dict: unique names). -/
def page_prop_type (props : List (List Char × PType)) (name : List Char) : Option PType :=
  (props.find? fun p => p.1 = name).map Prod.snd

/-- The configured destination property names (the `*_PROP` environment
values of lines 20-28; `TITLE_PROP` is unused by `update_page`, which
discovers the title property dynamically). -/
structure Cfg where
  AUTHOR_PROP : List Char
  PUBLISHER_PROP : List Char
  PAGES_PROP : List Char
  GENRE_PROP : List Char
  STATUS_PROP : List Char
  KY_URL_PROP : List Char
  REQUEST_PROP : List Char
  READ_PAGES_PROP : List Char

/-- The default property names of lines 20-28. -/
def defaultCfg : Cfg :=
  { AUTHOR_PROP := "저자".data
    PUBLISHER_PROP := "출판사".data
    PAGES_PROP := "페이지".data
    GENRE_PROP := "장르".data
    STATUS_PROP := "상태".data
    KY_URL_PROP := "교보 URL".data
    REQUEST_PROP := "수집요청".data
    READ_PAGES_PROP := "읽은 페이지".data }

/-- Python dict assignment on the patch: replace in place when the key
exists, append otherwise. -/
def dinsert (k : List Char) (v : PatchVal) (d : List (List Char × PatchVal)) :
    List (List Char × PatchVal) :=
  if d.any fun p => p.1 = k then
    d.map fun p => if p.1 = k then (k, v) else p
  else d ++ [(k, v)]

/-- One step of the field loop at lines 401-422: write `val` under
`name` when the destination property exists, the value is present
(`is not None`), and the shaped value is built. -/
def addField (props : List (List Char × PType)) (name : List Char) (val : JVal)
    (patch : List (List Char × PatchVal)) : List (List Char × PatchVal) :=
  match page_prop_type props name with
  | some pt =>
    match val with
    | .jnull => patch
    | v =>
      match build_value pt v with
      | some pv => dinsert name pv patch
      | none => patch
  | none => patch

/-- Lines 396-398: discover the first title-typed property and write
the metadata title under it when present. -/
def titleStep (props : List (List Char × PType)) (info : Info)
    (patch : List (List Char × PatchVal)) : List (List Char × PatchVal) :=
  match props.find? fun p => p.2 = PType.title with
  | some tp =>
    if truthy info.title then
      match build_value .title info.title with
      | some pv => dinsert tp.1 pv patch
      | none => patch
    else patch
  | none => patch

/-- Lines 424-428: write the mapped genre when a mapping hit exists and
the destination is a choice-typed property. -/
def genreStep (cfg : Cfg) (gm : List (List Char × List Char))
    (props : List (List Char × PType)) (info : Info)
    (patch : List (List Char × PatchVal)) : List (List Char × PatchVal) :=
  match page_prop_type props cfg.GENRE_PROP with
  | some gt =>
    match mapGenreJ gm (pyOr info.genre info.title) with
    | some mapped =>
      if !mapped.isEmpty ∧ (gt = PType.select ∨ gt = PType.multi_select) then
        match build_value gt (.jstr mapped) with
        | some pv => dinsert cfg.GENRE_PROP pv patch
        | none => patch
      else patch
    | none => patch
  | none => patch

/-- Lines 430-432: force the status property to the fixed option. -/
def statusStep (cfg : Cfg) (props : List (List Char × PType))
    (patch : List (List Char × PatchVal)) : List (List Char × PatchVal) :=
  if page_prop_type props cfg.STATUS_PROP = some PType.select then
    dinsert cfg.STATUS_PROP (.pvSelect "시작 전".data) patch
  else patch

/-- Lines 437-438: clear the request flag. -/
def requestStep (cfg : Cfg) (props : List (List Char × PType))
    (patch : List (List Char × PatchVal)) : List (List Char × PatchVal) :=
  if page_prop_type props cfg.REQUEST_PROP = some PType.checkbox then
    dinsert cfg.REQUEST_PROP (.pvCheckbox false) patch
  else patch

/-- The property patch assembled by `update_page` (lines 392-441),
as a function of the retrieved property table and the metadata record:
the title write, the four-field loop (author, publisher, pages, URL),
the genre write, the status force-set and the request-flag clear, in
source order.  The cover patch of lines 389-390 is a separate external
call and not part of this dict; lines 434-435 are the comment stating
that the read-pages property is never touched. -/
def update_page_patch (cfg : Cfg) (gm : List (List Char × List Char))
    (props_now : List (List Char × PType)) (info : Info) :
    List (List Char × PatchVal) :=
  requestStep cfg props_now
    (statusStep cfg props_now
      (genreStep cfg gm props_now info
        (addField props_now cfg.KY_URL_PROP info.detail_url
          (addField props_now cfg.PAGES_PROP info.pages
            (addField props_now cfg.PUBLISHER_PROP info.publisher
              (addField props_now cfg.AUTHOR_PROP info.author
                (titleStep props_now info [])))))))

/-! ### Concrete inputs used by the claim theorems and witnesses -/

/-- A markup whose only structured-data block carries a negative page
count, used to refute C5. -/
def C5block : Option JVal :=
  some (.jobj [("@type".data, .jstr "Book".data), ("numberOfPages".data, .jnum (-5))])

/-- See `C5block`. -/
def C5markup : Markup :=
  { jsonldBlocks := [C5block], selectorTexts := [], ogImage := none, pagesHit := none }

/-- A markup where the structured-data block yields title "A" while the
primary-heading selector yields "B", used to refute C1. -/
def C1markup : Markup :=
  { jsonldBlocks := [some (.jobj [("@type".data, .jstr "Book".data), ("name".data, .jstr "A".data)])]
    selectorTexts := [some "B".data]
    ogImage := none
    pagesHit := none }

/-- The all-blank metadata dict, the state of the browser `info` when
the rendered session raises before extracting anything. -/
def emptyInfoB : Info :=
  { kyobo_id := .jnull, detail_url := .jnull, title := .jnull, cover := .jnull,
    author := .jnull, publisher := .jnull, pages := .jnull, genre := .jnull, isbn := .jnull }

/-- A markup on which the static pass extracts nothing at all. -/
def C7markup : Markup :=
  { jsonldBlocks := [], selectorTexts := [], ogImage := none, pagesHit := none }

/-- A browser state that had extracted a title before raising. -/
def C7raised : Info :=
  { emptyInfoB with title := .jstr "X".data }

/-- A markup whose static pass does populate a title, so no escalation
happens. -/
def C7wmarkup : Markup :=
  { jsonldBlocks := [], selectorTexts := [some "T".data], ogImage := none, pagesHit := none }

/-- A preview-title oracle for the witness (scenario B of the spec). -/
def C3f (kid : List Char) : Option (List Char) :=
  if kid = "S000001".data then some "미드나이트 라이브러리 (특별판)".data else some "다른 책".data

/-- See `C3f`. -/
def C3ids : List (List Char) := ["S000001".data, "S000002".data]

/-- A live schema carrying a numeric read-pages property. -/
def C9props : List (List Char × PType) :=
  [("책 제목".data, .title), ("저자".data, .rich_text), ("페이지".data, .number),
   ("읽은 페이지".data, .number), ("상태".data, .select), ("수집요청".data, .checkbox)]

/-- A populated metadata record. -/
def C9info : Info :=
  { kyobo_id := .jstr "S1".data, detail_url := .jstr (detailUrlOf "S1".data),
    title := .jstr "T".data, cover := .jnull, author := .jstr "A".data,
    publisher := .jnull, pages := .jnum 320, genre := .jnull, isbn := .jnull }

/-! ## Theorems -/

/-- A nonempty string has no empty bigram window: every window starts
at an index below the length, so it holds at least one character. -/
theorem nil_not_mem_windows {y : List Char} (h : y ≠ []) : ([] : List Char) ∉ windows y := by
  simp only [windows, List.mem_map, List.mem_range]
  rintro ⟨i, hi, hw⟩
  have hy : 0 < y.length := List.length_pos.mpr h
  have hiy : i < y.length := by rw [Nat.max_def] at hi; split at hi <;> omega
  have hd : y.drop i ≠ [] := by
    apply List.ne_nil_of_length_pos
    simp only [List.length_drop]; omega
  rcases List.take_eq_nil_iff.mp hw with h2 | h2
  · exact absurd h2 (by norm_num)
  · exact hd h2

/-- C2, counterexample: the claim states `similarity("", y) = 0.0` for
every `y`, including `y = ""`, but on two empty strings both window
sets are the singleton of the empty window, so `_sim` returns
`1/1 = 1.0`, not `0.0`. -/
theorem C2_counterexample : simS [] [] ≠ 0 := by
  have h1 : windows ([] : List Char) = [[]] := by decide
  have h2 : windowInter [] [] = 1 := by decide
  have h3 : windowCard [] = 1 := by decide
  rw [simS, if_neg (by rw [h1]; exact List.cons_ne_nil _ _), h2, h3]
  norm_num

/-- C2, amended: `_sim` applied to an empty query returns `0.0` for
every nonempty candidate `y`; on `_sim("", "")` it returns `1.0`
instead (the empty window of the query is a window of the empty
candidate as well, and the `if not A` guard never fires because the
window set is never empty). -/
theorem C2_empty_query_zero (y : List Char) (h : y ≠ []) : simS [] y = 0 := by
  have h1 : windows ([] : List Char) = [[]] := by decide
  have h2 : windowInter [] y = 0 := by
    have hnm := nil_not_mem_windows h
    simp [windowInter, h1, hnm]
  rw [simS, if_neg (by rw [h1]; exact List.cons_ne_nil _ _), h2]
  norm_num

/-- C2, witness: the amended statement at the concrete candidate "a". -/
theorem C2_witness : simS [] ['a'] = 0 := C2_empty_query_zero ['a'] (by decide)

/-- Dropping the unparsable blocks does not change the block loop:
a `none` block is skipped without touching the accumulator. -/
theorem processBlocks_skip (st : JsonLdRec) (blocks : List (Option JVal)) :
    processBlocks st blocks = processBlocks st (blocks.reduceOption.map some) := by
  induction blocks generalizing st with
  | nil => rfl
  | cons b rest ih =>
    cases b with
    | none => simp [processBlocks, List.reduceOption_cons_of_none, List.reduceOption, ih]
    | some d => simp [processBlocks, List.reduceOption_cons_of_some, List.reduceOption, ih]

/-- C10: a structured-data block whose payload fails to parse is
skipped without aborting extraction — for every block list (malformed
and well-formed blocks in any mix), `_jsonld_extract_all` returns
exactly the record it returns on the well-formed blocks alone; the
per-block parse failure is absorbed by the block loop (and, being a
total function, the extraction never raises). -/
theorem C10_malformed_blocks_skipped (blocks : List (Option JVal)) :
    jsonldExtractAll blocks = jsonldExtractAll (blocks.reduceOption.map some) := by
  unfold jsonldExtractAll
  rw [processBlocks_skip]

/-! ### Field-level characterization of fetch_detail_static -/

theorem truthy_jnull : truthy JVal.jnull = false := rfl

theorem truthy_jstr (s : List Char) : truthy (JVal.jstr s) = !s.isEmpty := rfl

theorem cleanTitleJ_jstr (s : List Char) : cleanTitleJ (JVal.jstr s) = JVal.jstr (cleanL s) := rfl

/-- The body-title stage touches only the title. -/
theorem applyBodyTitle_proj (tb : Option (List Char)) (i : Info) :
    (applyBodyTitle tb i).pages = i.pages ∧ (applyBodyTitle tb i).cover = i.cover ∧
    (applyBodyTitle tb i).author = i.author ∧ (applyBodyTitle tb i).publisher = i.publisher ∧
    (applyBodyTitle tb i).genre = i.genre ∧ (applyBodyTitle tb i).isbn = i.isbn ∧
    (applyBodyTitle tb i).kyobo_id = i.kyobo_id ∧ (applyBodyTitle tb i).detail_url = i.detail_url := by
  cases tb <;> exact ⟨rfl, rfl, rfl, rfl, rfl, rfl, rfl, rfl⟩

/-- The title after the body-title stage: the body value overwrites
whatever was there whenever extraction succeeded. -/
theorem applyBodyTitle_title (tb : Option (List Char)) (i : Info) :
    (applyBodyTitle tb i).title = (match tb with | some bt => JVal.jstr bt | none => i.title) := by
  cases tb <;> rfl

/-- The cover stage touches only the cover. -/
theorem applyOgCover_proj (og : Option (List Char)) (i : Info) :
    (applyOgCover og i).pages = i.pages ∧ (applyOgCover og i).title = i.title ∧
    (applyOgCover og i).author = i.author ∧ (applyOgCover og i).publisher = i.publisher ∧
    (applyOgCover og i).genre = i.genre ∧ (applyOgCover og i).isbn = i.isbn ∧
    (applyOgCover og i).kyobo_id = i.kyobo_id ∧ (applyOgCover og i).detail_url = i.detail_url := by
  cases og <;> simp [applyOgCover, apply_ite]

/-- The cover after the cover stage, given that it was blank before
(which is the case in `fetch_detail_static`: no earlier stage writes
it). -/
theorem applyOgCover_cover (og : Option (List Char)) (i : Info) (h : i.cover = JVal.jnull) :
    (applyOgCover og i).cover =
      (match og with
       | some cov => if cov.isEmpty then JVal.jnull else JVal.jstr cov
       | none => JVal.jnull) := by
  cases og with
  | none => simpa using h
  | some cov =>
    unfold applyOgCover
    cases hc : cov.isEmpty <;> simp [h, hc, truthy_jnull]

/-- The page-count backup stage touches only the pages. -/
theorem applyPagesBackup_proj (light : Bool) (ph : Option Nat) (i : Info) :
    (applyPagesBackup light ph i).title = i.title ∧ (applyPagesBackup light ph i).cover = i.cover ∧
    (applyPagesBackup light ph i).author = i.author ∧
    (applyPagesBackup light ph i).publisher = i.publisher ∧
    (applyPagesBackup light ph i).genre = i.genre ∧ (applyPagesBackup light ph i).isbn = i.isbn ∧
    (applyPagesBackup light ph i).kyobo_id = i.kyobo_id ∧
    (applyPagesBackup light ph i).detail_url = i.detail_url := by
  cases ph <;> simp [applyPagesBackup, apply_ite]

/-- The pages after the backup stage: the regex capture fills the field
only when it was still falsy and the fetch is not lightweight. -/
theorem applyPagesBackup_pages (light : Bool) (ph : Option Nat) (i : Info) :
    (applyPagesBackup light ph i).pages =
      (if light = false ∧ ¬ truthy i.pages then
        (match ph with | some n => JVal.jnum n | none => i.pages)
       else i.pages) := by
  unfold applyPagesBackup
  split <;> rename_i hcond
  · cases ph <;> simp [hcond]
  · simp [hcond]

/-- The final title cleaning touches only the title. -/
theorem finalTitleClean_proj (i : Info) :
    (finalTitleClean i).pages = i.pages ∧ (finalTitleClean i).cover = i.cover ∧
    (finalTitleClean i).author = i.author ∧ (finalTitleClean i).publisher = i.publisher ∧
    (finalTitleClean i).genre = i.genre ∧ (finalTitleClean i).isbn = i.isbn ∧
    (finalTitleClean i).kyobo_id = i.kyobo_id ∧ (finalTitleClean i).detail_url = i.detail_url := by
  simp [finalTitleClean, apply_ite]

theorem finalTitleClean_title (i : Info) :
    (finalTitleClean i).title = (if truthy i.title then cleanTitleJ i.title else i.title) := by
  unfold finalTitleClean
  split <;> simp_all

/-- The pages field of the static fetch: the JSON-LD value when truthy,
otherwise the loose-text capture (skipped on lightweight fetches). -/
theorem fds_pages (kid : List Char) (m : Markup) (light : Bool) :
    (fetch_detail_static kid m light).pages =
      (if truthy (jsonldExtractAll m.jsonldBlocks).pages then (jsonldExtractAll m.jsonldBlocks).pages
       else if light then JVal.jnull
       else match m.pagesHit with | some n => JVal.jnum n | none => JVal.jnull) := by
  unfold fetch_detail_static
  rw [(finalTitleClean_proj _).1, applyPagesBackup_pages,
      (applyOgCover_proj _ _).1, (applyBodyTitle_proj _ _).1]
  have hmp : (mergeJsonLd kid (jsonldExtractAll m.jsonldBlocks)).pages =
      (if truthy (jsonldExtractAll m.jsonldBlocks).pages
       then (jsonldExtractAll m.jsonldBlocks).pages else JVal.jnull) := rfl
  rw [hmp]
  cases htr : truthy (jsonldExtractAll m.jsonldBlocks).pages <;>
    cases light <;> rcases m.pagesHit with _ | n <;> simp [truthy_jnull, htr]

/-- The title of the static fetch: the cleaned body-selector title when
one is extracted (overwriting any JSON-LD title), else the JSON-LD
title (already cleaned once, cleaned again by lines 262-263 through
`cleanTitleJ`). -/
theorem fds_title (kid : List Char) (m : Markup) (light : Bool) :
    (fetch_detail_static kid m light).title =
      (match extract_title_from_body m.selectorTexts with
       | some bt => JVal.jstr (cleanL bt)
       | none =>
         if truthy (jsonldExtractAll m.jsonldBlocks).title
         then cleanTitleJ (jsonldExtractAll m.jsonldBlocks).title
         else JVal.jnull) := by
  unfold fetch_detail_static
  rw [finalTitleClean_title, (applyPagesBackup_proj _ _ _).1, (applyOgCover_proj _ _).2.1,
      applyBodyTitle_title]
  have hmt : (mergeJsonLd kid (jsonldExtractAll m.jsonldBlocks)).title =
      (if truthy (jsonldExtractAll m.jsonldBlocks).title
       then (jsonldExtractAll m.jsonldBlocks).title else JVal.jnull) := rfl
  rw [hmt]
  rcases extract_title_from_body m.selectorTexts with _ | bt
  · cases htr : truthy (jsonldExtractAll m.jsonldBlocks).title <;> simp [truthy_jnull, htr]
  · cases bt with
    | nil => simp [truthy_jstr, cleanL]
    | cons c cs => simp [truthy_jstr, cleanTitleJ_jstr]

/-- The cover of the static fetch comes from the `og:image` tag alone. -/
theorem fds_cover (kid : List Char) (m : Markup) (light : Bool) :
    (fetch_detail_static kid m light).cover =
      (match m.ogImage with
       | some cov => if cov.isEmpty then JVal.jnull else JVal.jstr cov
       | none => JVal.jnull) := by
  unfold fetch_detail_static
  rw [(finalTitleClean_proj _).2.1, (applyPagesBackup_proj _ _ _).2.1]
  rw [applyOgCover_cover]
  exact (applyBodyTitle_proj _ _).2.1.trans rfl

/-- The remaining fields of the static fetch are written by the JSON-LD
merge alone. -/
theorem fds_rest (kid : List Char) (m : Markup) (light : Bool) :
    (fetch_detail_static kid m light).author =
      (if truthy (jsonldExtractAll m.jsonldBlocks).author
       then (jsonldExtractAll m.jsonldBlocks).author else JVal.jnull) ∧
    (fetch_detail_static kid m light).publisher =
      (if truthy (jsonldExtractAll m.jsonldBlocks).publisher
       then (jsonldExtractAll m.jsonldBlocks).publisher else JVal.jnull) ∧
    (fetch_detail_static kid m light).genre =
      (if truthy (jsonldExtractAll m.jsonldBlocks).genre
       then (jsonldExtractAll m.jsonldBlocks).genre else JVal.jnull) ∧
    (fetch_detail_static kid m light).isbn =
      (if truthy (jsonldExtractAll m.jsonldBlocks).isbn
       then (jsonldExtractAll m.jsonldBlocks).isbn else JVal.jnull) ∧
    (fetch_detail_static kid m light).kyobo_id = JVal.jstr kid ∧
    (fetch_detail_static kid m light).detail_url = JVal.jstr (detailUrlOf kid) := by
  unfold fetch_detail_static
  refine ⟨?_, ?_, ?_, ?_, ?_, ?_⟩
  · rw [(finalTitleClean_proj _).2.2.1, (applyPagesBackup_proj _ _ _).2.2.1,
        (applyOgCover_proj _ _).2.2.1, (applyBodyTitle_proj _ _).2.2.1]
    rfl
  · rw [(finalTitleClean_proj _).2.2.2.1, (applyPagesBackup_proj _ _ _).2.2.2.1,
        (applyOgCover_proj _ _).2.2.2.1, (applyBodyTitle_proj _ _).2.2.2.1]
    rfl
  · rw [(finalTitleClean_proj _).2.2.2.2.1, (applyPagesBackup_proj _ _ _).2.2.2.2.1,
        (applyOgCover_proj _ _).2.2.2.2.1, (applyBodyTitle_proj _ _).2.2.2.2.1]
    rfl
  · rw [(finalTitleClean_proj _).2.2.2.2.2.1, (applyPagesBackup_proj _ _ _).2.2.2.2.2.1,
        (applyOgCover_proj _ _).2.2.2.2.2.1, (applyBodyTitle_proj _ _).2.2.2.2.2.1]
    rfl
  · rw [(finalTitleClean_proj _).2.2.2.2.2.2.1, (applyPagesBackup_proj _ _ _).2.2.2.2.2.2.1,
        (applyOgCover_proj _ _).2.2.2.2.2.2.1, (applyBodyTitle_proj _ _).2.2.2.2.2.2.1]
    rfl
  · rw [(finalTitleClean_proj _).2.2.2.2.2.2.2, (applyPagesBackup_proj _ _ _).2.2.2.2.2.2.2,
        (applyOgCover_proj _ _).2.2.2.2.2.2.2, (applyBodyTitle_proj _ _).2.2.2.2.2.2.2]
    rfl

/-- C5, counterexample: a structured-data block may carry a negative
(or non-numeric) `numberOfPages`, which line 213 passes through
verbatim, so the pages field of the extracted record is neither absent
nor a nonnegative integer. -/
theorem C5_counterexample :
    ¬ ((fetch_detail_static "S1".data C5markup false).pages = JVal.jnull ∨
       ∃ n : Int, 0 ≤ n ∧ (fetch_detail_static "S1".data C5markup false).pages = JVal.jnum n) := by
  have hp : (fetch_detail_static "S1".data C5markup false).pages = JVal.jnum (-5) := by rfl
  rintro (h | ⟨n, hn, h⟩) <;> rw [hp] at h
  · exact absurd h (by simp)
  · injection h with h2
    omega

/-- C5, amended: the pages field of every extracted record is either
absent, or the verbatim `numberOfPages` value of a structured-data
block (which may be negative or a non-digit string), or the nonnegative
integer captured by the loose-text fallback. -/
theorem C5_pages_shape (kid : List Char) (m : Markup) (light : Bool) :
    (fetch_detail_static kid m light).pages = JVal.jnull ∨
    ((fetch_detail_static kid m light).pages = (jsonldExtractAll m.jsonldBlocks).pages ∧
      truthy (jsonldExtractAll m.jsonldBlocks).pages = true) ∨
    (∃ n : Nat, m.pagesHit = some n ∧
      (fetch_detail_static kid m light).pages = JVal.jnum (n : Int)) := by
  rw [fds_pages]
  cases htr : truthy (jsonldExtractAll m.jsonldBlocks).pages
  · cases light
    · rcases hph : m.pagesHit with _ | n
      · simp [htr, hph]
      · exact Or.inr (Or.inr ⟨n, rfl, by simp [htr, hph]⟩)
    · simp [htr]
  · simp [htr]

/-- C1, counterexample: lines 247-249 assign the body-extracted title
unconditionally, so a structured-data title "A" IS overwritten by a
later heading-stage title "B" — first writer does not win for the
title. -/
theorem C1_counterexample :
    (jsonldExtractAll C1markup.jsonldBlocks).title = JVal.jstr "A".data ∧
    extract_title_from_body C1markup.selectorTexts = some "B".data ∧
    (fetch_detail_static "S1".data C1markup false).title = JVal.jstr "B".data ∧
    (fetch_detail_static "S1".data C1markup false).title ≠ JVal.jstr "A".data := by
  refine ⟨rfl, rfl, rfl, ?_⟩
  intro h
  have h3 : (JVal.jstr "B".data) = JVal.jstr "A".data := by
    have h2 : (fetch_detail_static "S1".data C1markup false).title = JVal.jstr "B".data := rfl
    rw [h2] at h; exact h
  injection h3 with h4
  exact absurd h4 (by decide)

/-- C1, amended: extraction follows first-writer-wins for author,
publisher, genre, ISBN and page count (a truthy structured-data value
is never overwritten by a later stage), and the cover is only
backfilled; the title is the exception — whenever the primary-heading
stage yields a title, it overwrites any structured-data title, and the
structured-data title survives exactly when the heading stage yields
nothing. -/
theorem C1_precedence_amended (kid : List Char) (m : Markup) (light : Bool) :
    (∀ bt, extract_title_from_body m.selectorTexts = some bt →
       (fetch_detail_static kid m light).title = JVal.jstr (cleanL bt)) ∧
    (extract_title_from_body m.selectorTexts = none →
       (fetch_detail_static kid m light).title =
         (if truthy (jsonldExtractAll m.jsonldBlocks).title
          then cleanTitleJ (jsonldExtractAll m.jsonldBlocks).title else JVal.jnull)) ∧
    (truthy (jsonldExtractAll m.jsonldBlocks).author = true →
       (fetch_detail_static kid m light).author = (jsonldExtractAll m.jsonldBlocks).author) ∧
    (truthy (jsonldExtractAll m.jsonldBlocks).publisher = true →
       (fetch_detail_static kid m light).publisher = (jsonldExtractAll m.jsonldBlocks).publisher) ∧
    (truthy (jsonldExtractAll m.jsonldBlocks).genre = true →
       (fetch_detail_static kid m light).genre = (jsonldExtractAll m.jsonldBlocks).genre) ∧
    (truthy (jsonldExtractAll m.jsonldBlocks).isbn = true →
       (fetch_detail_static kid m light).isbn = (jsonldExtractAll m.jsonldBlocks).isbn) ∧
    (truthy (jsonldExtractAll m.jsonldBlocks).pages = true →
       (fetch_detail_static kid m light).pages = (jsonldExtractAll m.jsonldBlocks).pages) := by
  refine ⟨?_, ?_, ?_, ?_, ?_, ?_, ?_⟩
  · intro bt hbt; rw [fds_title, hbt]
  · intro hbt; rw [fds_title, hbt]
  · intro h; rw [(fds_rest kid m light).1, h]; simp
  · intro h; rw [(fds_rest kid m light).2.1, h]; simp
  · intro h; rw [(fds_rest kid m light).2.2.1, h]; simp
  · intro h; rw [(fds_rest kid m light).2.2.2.1, h]; simp
  · intro h; rw [fds_pages, h]; simp

/-- C1, witness: the amended theorem applied at `C1markup`, where the
heading stage yields "B". -/
theorem C1_witness :
    (fetch_detail_static "S1".data C1markup false).title = JVal.jstr (cleanL "B".data) :=
  (C1_precedence_amended "S1".data C1markup false).1 "B".data rfl

/-- C7, counterexample: when the rendered path raises only after it had
already filled a field (here the title, before a later failure), the
swallowed-exception result carries that field, so `fetch_detail` does
not return exactly the static record. -/
theorem C7_counterexample :
    (fetch_detail "S1".data C7markup (Except.error C7raised) false).title = JVal.jstr "X".data ∧
    (fetch_detail_static "S1".data C7markup false).title = JVal.jnull ∧
    fetch_detail "S1".data C7markup (Except.error C7raised) false ≠
      fetch_detail_static "S1".data C7markup false := by
  refine ⟨rfl, rfl, ?_⟩
  intro h
  have h2 : JVal.jstr "X".data = JVal.jnull := by
    have ha : (fetch_detail "S1".data C7markup (Except.error C7raised) false).title
        = JVal.jstr "X".data := rfl
    have hb : (fetch_detail_static "S1".data C7markup false).title = JVal.jnull := rfl
    rw [← ha, h, hb]
  exact absurd h2 (by simp)

/-- C7, amended: `fetch_detail` escalates to the rendered fetch exactly
when the static pass populated none of title, author, publisher and
cover; a raise in the rendered path never escapes (both outcomes of the
attempt produce a record), and the result is the static record merged
with whatever fields the rendered pass had filled before raising — in
particular, when the rendered pass raises before extracting anything,
the result is exactly the static record. -/
theorem C7_fallback_amended (kid : List Char) (m : Markup) (att : Except Info Info) (light : Bool) :
    ((truthy (fetch_detail_static kid m light).title = true ∨
      truthy (fetch_detail_static kid m light).author = true ∨
      truthy (fetch_detail_static kid m light).publisher = true ∨
      truthy (fetch_detail_static kid m light).cover = true) →
       fetch_detail kid m att light = fetch_detail_static kid m light) ∧
    (¬ (truthy (fetch_detail_static kid m light).title = true ∨
        truthy (fetch_detail_static kid m light).author = true ∨
        truthy (fetch_detail_static kid m light).publisher = true ∨
        truthy (fetch_detail_static kid m light).cover = true) →
       fetch_detail kid m att light =
         mergeAbsent (fetch_detail_static kid m light) (fetch_detail_browser kid att)) ∧
    fetch_detail kid m (Except.error emptyInfoB) light = fetch_detail_static kid m light := by
  refine ⟨?_, ?_, ?_⟩
  · intro h; unfold fetch_detail; rw [if_pos h]
  · intro h; unfold fetch_detail; rw [if_neg h]
  · unfold fetch_detail
    dsimp only
    split
    · rfl
    · have hb : fetch_detail_browser kid (Except.error emptyInfoB) =
        { kyobo_id := .jstr kid, detail_url := .jstr (detailUrlOf kid), title := .jnull,
          cover := .jnull, author := .jnull, publisher := .jnull, pages := .jnull,
          genre := .jnull, isbn := .jnull } := rfl
      rw [hb]
      have hk : (fetch_detail_static kid m light).kyobo_id = JVal.jstr kid :=
        (fds_rest kid m light).2.2.2.2.1
      have hu : (fetch_detail_static kid m light).detail_url = JVal.jstr (detailUrlOf kid) :=
        (fds_rest kid m light).2.2.2.2.2
      unfold mergeAbsent
      rw [hk, hu]
      simp only [truthy_jnull]
      simp only [Bool.false_eq_true, false_and, and_false, if_false, ite_false, and_true,
        not_false_eq_true, Bool.not_eq_true]
      rw [← hk, ← hu]
      simp only [ite_self]

/-- C7, witness: the amended theorem applied where the static pass
succeeded — the browser attempt (raising or not) is ignored. -/
theorem C7_witness :
    fetch_detail "S1".data C7wmarkup (Except.error C7raised) false =
      fetch_detail_static "S1".data C7wmarkup false :=
  (C7_fallback_amended "S1".data C7wmarkup (Except.error C7raised) false).1 (Or.inl rfl)


/-- Similarity scores are nonnegative. -/
theorem simS_nonneg (a b : List Char) : 0 ≤ simS a b := by
  unfold simS
  split
  · exact le_refl 0
  · positivity

/-- Candidate scores are nonnegative (so every candidate beats the
starting `-1.0`). -/
theorem scoreOf_nonneg (key : List Char) (f : List Char → Option (List Char)) (kid : List Char) :
    0 ≤ scoreOf key f kid := simS_nonneg _ _

/-- The scoring loop either keeps its accumulator (when nothing beats
the incoming score) or returns the first index attaining the strict
maximum: every score is at most the winning score, and every earlier
score is strictly below it. -/
theorem bestLoop_spec (key : List Char) (f : List Char → Option (List Char)) :
    ∀ (l : List (List Char)) (best : Option (List Char)) (bs : ℚ),
    ((∀ j (hj : j < l.length), scoreOf key f (l.get ⟨j, hj⟩) ≤ bs) ∧
      bestLoop key f l best bs = (best, bs)) ∨
    (∃ i, ∃ h : i < l.length,
      (bestLoop key f l best bs).1 = some (l.get ⟨i, h⟩) ∧
      (bestLoop key f l best bs).2 = scoreOf key f (l.get ⟨i, h⟩) ∧
      bs < scoreOf key f (l.get ⟨i, h⟩) ∧
      (∀ j (hj : j < l.length), scoreOf key f (l.get ⟨j, hj⟩) ≤ scoreOf key f (l.get ⟨i, h⟩)) ∧
      (∀ j (hj : j < l.length), j < i →
        scoreOf key f (l.get ⟨j, hj⟩) < scoreOf key f (l.get ⟨i, h⟩))) := by
  intro l
  induction l with
  | nil =>
    intro best bs
    exact Or.inl ⟨fun j hj => absurd hj (by simp), rfl⟩
  | cons kid rest ih =>
    intro best bs
    by_cases hlt : bs < scoreOf key f kid
    · have hloop : bestLoop key f (kid :: rest) best bs = bestLoop key f rest (some kid) (scoreOf key f kid) := by
        rw [bestLoop]
        simp only [hlt, if_true, ite_true]
      rcases ih (some kid) (scoreOf key f kid) with ⟨hall, heq⟩ | ⟨i, hi, h1, h2, h3, h4, h5⟩
      · refine Or.inr ⟨0, by simp, ?_, ?_, hlt, ?_, ?_⟩
        · rw [hloop, heq]
          rfl
        · rw [hloop, heq]
          rfl
        · intro j hj
          cases j with
          | zero => exact le_refl _
          | succ k => exact hall k (by simpa using hj)
        · intro j hj hj0
          exact absurd hj0 (by omega)
      · refine Or.inr ⟨i + 1, by simpa using hi, ?_, ?_, ?_, ?_, ?_⟩
        · rw [hloop]; simpa using h1
        · rw [hloop]; simpa using h2
        · exact lt_trans hlt h3
        · intro j hj
          cases j with
          | zero => exact le_of_lt h3
          | succ k => exact h4 k (by simpa using hj)
        · intro j hj hji
          cases j with
          | zero => exact h3
          | succ k => exact h5 k (by simpa using hj) (by omega)
    · have hloop : bestLoop key f (kid :: rest) best bs = bestLoop key f rest best bs := by
        rw [bestLoop]
        simp only [hlt, if_false, ite_false]
      rcases ih best bs with ⟨hall, heq⟩ | ⟨i, hi, h1, h2, h3, h4, h5⟩
      · refine Or.inl ⟨?_, by rw [hloop, heq]⟩
        intro j hj
        cases j with
        | zero => exact le_of_not_lt hlt
        | succ k => exact hall k (by simpa using hj)
      · refine Or.inr ⟨i + 1, by simpa using hi, ?_, ?_, ?_, ?_, ?_⟩
        · rw [hloop]; simpa using h1
        · rw [hloop]; simpa using h2
        · exact h3
        · intro j hj
          cases j with
          | zero => exact le_trans (le_of_not_lt hlt) (le_of_lt h3)
          | succ k => exact h4 k (by simpa using hj)
        · intro j hj hji
          cases j with
          | zero => exact lt_of_le_of_lt (le_of_not_lt hlt) h3
          | succ k => exact h5 k (by simpa using hj) (by omega)

/-- C3: candidate selection is deterministic and returns, among the
examined candidates (first five), the one whose preview title scores
highest against the query title, ties broken in favor of the earliest
seen (strict greater-than), and returns `None` exactly when the
candidate list is empty. -/
theorem C3_choose_best_spec (f : List Char → Option (List Char)) (title : List Char)
    (ids : List (List Char)) :
    (choose_best_id f title ids = none ↔ ids = []) ∧
    (ids ≠ [] → ∃ i, ∃ h : i < (ids.take 5).length,
      choose_best_id f title ids = some ((ids.take 5).get ⟨i, h⟩) ∧
      (∀ j (hj : j < (ids.take 5).length),
        scoreOf (normS title) f ((ids.take 5).get ⟨j, hj⟩) ≤
          scoreOf (normS title) f ((ids.take 5).get ⟨i, h⟩)) ∧
      (∀ j (hj : j < (ids.take 5).length), j < i →
        scoreOf (normS title) f ((ids.take 5).get ⟨j, hj⟩) <
          scoreOf (normS title) f ((ids.take 5).get ⟨i, h⟩))) := by
  have main : ids ≠ [] → ∃ i, ∃ h : i < (ids.take 5).length,
      choose_best_id f title ids = some ((ids.take 5).get ⟨i, h⟩) ∧
      (∀ j (hj : j < (ids.take 5).length),
        scoreOf (normS title) f ((ids.take 5).get ⟨j, hj⟩) ≤
          scoreOf (normS title) f ((ids.take 5).get ⟨i, h⟩)) ∧
      (∀ j (hj : j < (ids.take 5).length), j < i →
        scoreOf (normS title) f ((ids.take 5).get ⟨j, hj⟩) <
          scoreOf (normS title) f ((ids.take 5).get ⟨i, h⟩)) := by
    intro hne
    have hie : ids.isEmpty = false := by
      cases ids with
      | nil => exact absurd rfl hne
      | cons a l => rfl
    rcases bestLoop_spec (normS title) f (ids.take 5) none (-1) with
      ⟨hall, _⟩ | ⟨i, hi, h1, h2, h3, h4, h5⟩
    · exfalso
      have htake : (ids.take 5) ≠ [] := by
        intro h
        rcases List.take_eq_nil_iff.mp h with h | h
        · norm_num at h
        · exact hne h
      have h0 : 0 < (ids.take 5).length := List.length_pos.mpr htake
      have hb := hall 0 h0
      have hge := scoreOf_nonneg (normS title) f ((ids.take 5).get ⟨0, h0⟩)
      linarith
    · refine ⟨i, hi, ?_, h4, h5⟩
      unfold choose_best_id
      rw [if_neg (by simp [hie])]
      exact h1
  refine ⟨⟨?_, ?_⟩, main⟩
  · intro h
    by_contra hne
    rcases main hne with ⟨i, hi, heq, _, _⟩
    rw [heq] at h
    exact Option.noConfusion h
  · intro h
    subst h
    rfl

/-- C3, witness: the theorem applied to a concrete two-candidate list. -/
theorem C3_witness :
    ∃ i, ∃ h : i < (C3ids.take 5).length,
      choose_best_id C3f "미드나이트 라이브러리".data C3ids = some ((C3ids.take 5).get ⟨i, h⟩) ∧
      (∀ j (hj : j < (C3ids.take 5).length),
        scoreOf (normS "미드나이트 라이브러리".data) C3f ((C3ids.take 5).get ⟨j, hj⟩) ≤
          scoreOf (normS "미드나이트 라이브러리".data) C3f ((C3ids.take 5).get ⟨i, h⟩)) ∧
      (∀ j (hj : j < (C3ids.take 5).length), j < i →
        scoreOf (normS "미드나이트 라이브러리".data) C3f ((C3ids.take 5).get ⟨j, hj⟩) <
          scoreOf (normS "미드나이트 라이브러리".data) C3f ((C3ids.take 5).get ⟨i, h⟩)) :=
  (C3_choose_best_spec C3f "미드나이트 라이브러리".data C3ids).2 (by decide)


/-- The substring test holds exactly when the pattern occurs
contiguously. -/
theorem containsSub_iff (pat : List Char) :
    ∀ l, containsSub pat l = true ↔ ∃ u v, l = u ++ pat ++ v := by
  intro l
  induction l with
  | nil =>
    rw [containsSub, List.isPrefixOf_iff_prefix]
    constructor
    · intro h
      have hp : pat = [] := List.prefix_nil.mp h
      exact ⟨[], [], by simp [hp]⟩
    · rintro ⟨u, v, huv⟩
      have h2 := huv.symm
      rw [List.append_assoc] at h2
      rcases List.append_eq_nil.mp h2 with ⟨hu, hpv⟩
      rcases List.append_eq_nil.mp hpv with ⟨hp, hv⟩
      simp [hp]
  | cons c rest ih =>
    rw [containsSub, Bool.or_eq_true, List.isPrefixOf_iff_prefix, ih]
    constructor
    · rintro (⟨t, ht⟩ | ⟨u, v, huv⟩)
      · exact ⟨[], t, by simp [ht.symm]⟩
      · exact ⟨c :: u, v, by simp [huv]⟩
    · rintro ⟨u, v, huv⟩
      cases u with
      | nil =>
        left
        exact ⟨v, by simpa using huv.symm⟩
      | cons c2 u2 =>
        right
        rw [List.cons_append, List.cons_append] at huv
        injection huv with hc hrest
        exact ⟨u2, v, by simpa using hrest⟩

/-- The rule loop returns the mapped value of the first rule (in
insertion order) that matches. -/
theorem mgLoop_find (R : List Char) (gm : List (List Char × List Char)) :
    mgLoop R gm = (gm.find? fun p => ruleHit R p.1).map Prod.snd := by
  induction gm with
  | nil => rfl
  | cons p rest ih =>
    rcases p with ⟨keys, val⟩
    rw [mgLoop]
    cases hr : ruleHit R keys
    · rw [List.find?_cons_of_neg _ (by simp [hr])]
      simpa [hr] using ih
    · rw [List.find?_cons_of_pos _ (by simp [hr])]
      simp [hr]

/-- C8: genre mapping is case-insensitive (it depends on the raw input
only through its lowercase image), substring-based (a rule matches when
any of its comma-separated keywords, stripped and lowercased, occurs as
a contiguous substring of the normalized input), first-match-wins in
insertion order, and returns absent for an absent input or when no rule
matches (no fallback value). -/
theorem C8_map_genre_spec :
    (∀ gm : List (List Char × List Char), map_genre gm [] = none) ∧
    (∀ (gm : List (List Char × List Char)) (raw : List Char), raw ≠ [] →
      map_genre gm raw = (gm.find? fun p => ruleHit (normS raw) p.1).map Prod.snd) ∧
    (∀ (gm : List (List Char × List Char)) (r1 r2 : List Char),
      r1.map Char.toLower = r2.map Char.toLower → map_genre gm r1 = map_genre gm r2) ∧
    (∀ R keys, ruleHit R keys = true ↔
      ∃ kw ∈ splitComma keys, (stripWs kw).map Char.toLower ≠ [] ∧
        ∃ u v, R = u ++ (stripWs kw).map Char.toLower ++ v) := by
  refine ⟨?_, ?_, ?_, ?_⟩
  · intro gm; rfl
  · intro gm raw hne
    have hie : raw.isEmpty = false := by
      cases raw with
      | nil => exact absurd rfl hne
      | cons a l => rfl
    unfold map_genre
    rw [if_neg (by simp [hie])]
    exact mgLoop_find _ _
  · intro gm r1 r2 h
    have hn : normS r1 = normS r2 := by unfold normS; rw [h]
    have he : r1.isEmpty = r2.isEmpty := by
      cases r1 with
      | nil =>
        cases r2 with
        | nil => rfl
        | cons b l2 => simp at h
      | cons a l1 =>
        cases r2 with
        | nil => simp at h
        | cons b l2 => rfl
    unfold map_genre
    rw [he, hn]
  · intro R keys
    unfold ruleHit
    rw [List.any_eq_true]
    constructor
    · rintro ⟨kw, hkw, hcond⟩
      rw [Bool.and_eq_true] at hcond
      refine ⟨kw, hkw, ?_, (containsSub_iff _ _).mp hcond.2⟩
      intro hnil
      rw [hnil] at hcond
      simp at hcond
    · rintro ⟨kw, hkw, hne, hinf⟩
      refine ⟨kw, hkw, ?_⟩
      rw [Bool.and_eq_true]
      constructor
      · simpa [List.isEmpty_iff] using hne
      · exact (containsSub_iff _ _).mpr hinf

/-- C8, witness: scenario D of the spec — rule "로맨스,romance" mapped
to "Romance" fires on the raw value "Romance Fiction". -/
theorem C8_witness :
    map_genre [("로맨스,romance".data, "Romance".data)] "Romance Fiction".data
      = some "Romance".data := by
  rw [C8_map_genre_spec.2.1 _ _ (by decide)]
  rfl


/-- Taking while a predicate holds walks through a block that
satisfies it entirely. -/
theorem takeWhile_append_all {p : Char → Bool} {ds : List Char} (h : ds.all p = true)
    (v : List Char) : (ds ++ v).takeWhile p = ds ++ v.takeWhile p := by
  induction ds with
  | nil => simp
  | cons d rest ih =>
    rw [List.all_cons, Bool.and_eq_true] at h
    rw [List.cons_append, List.takeWhile_cons_of_pos h.1, ih h.2]
    rfl

/-- Every identifier returned by the search matches the pattern:
the letter S followed by at least six digits. -/
theorem findSId_some_shape : ∀ (s id : List Char), findSId s = some id →
    ∃ ds, id = 'S' :: ds ∧ ds.all isDigitC = true ∧ 6 ≤ ds.length := by
  intro s
  induction s with
  | nil => intro id h; simp [findSId] at h
  | cons c rest ih =>
    intro id h
    rw [findSId] at h
    by_cases hc : c = 'S'
    · rw [if_pos hc] at h
      dsimp only at h
      by_cases hlen : 6 ≤ (rest.takeWhile isDigitC).length
      · rw [if_pos hlen, Option.some.injEq] at h
        subst h
        exact ⟨_, rfl, List.all_takeWhile, hlen⟩
      · rw [if_neg hlen] at h
        exact ih id h
    · rw [if_neg hc] at h
      exact ih id h

/-- The search succeeds exactly when the string contains an S followed
by six or more digits. -/
theorem findSId_isSome_iff : ∀ s : List Char,
    (findSId s).isSome = true ↔
      ∃ u ds v, s = u ++ 'S' :: (ds ++ v) ∧ ds.all isDigitC = true ∧ 6 ≤ ds.length := by
  intro s
  induction s with
  | nil =>
    simp [findSId]
  | cons c rest ih =>
    rw [findSId]
    by_cases hc : c = 'S'
    · rw [if_pos hc]
      dsimp only
      by_cases hlen : 6 ≤ (rest.takeWhile isDigitC).length
      · rw [if_pos hlen]
        simp only [Option.isSome_some, true_iff]
        refine ⟨[], rest.takeWhile isDigitC, rest.dropWhile isDigitC, ?_, List.all_takeWhile, hlen⟩
        simp [hc, List.takeWhile_append_dropWhile]
      · rw [if_neg hlen]
        rw [ih]
        constructor
        · rintro ⟨u, ds, v, hs, hall, hlen6⟩
          exact ⟨c :: u, ds, v, by simp [hs], hall, hlen6⟩
        · rintro ⟨u, ds, v, hs, hall, hlen6⟩
          cases u with
          | nil =>
            exfalso
            injection hs with h1 h2
            subst h2
            have := takeWhile_append_all hall v
            rw [this] at hlen
            simp at hlen
            omega
          | cons c2 u2 =>
            injection hs with h1 h2
            exact ⟨u2, ds, v, h2, hall, hlen6⟩
    · rw [if_neg hc]
      rw [ih]
      constructor
      · rintro ⟨u, ds, v, hs, hall, hlen6⟩
        exact ⟨c :: u, ds, v, by simp [hs], hall, hlen6⟩
      · rintro ⟨u, ds, v, hs, hall, hlen6⟩
        cases u with
        | nil =>
          exfalso
          injection hs with h1 h2
          exact hc h1
        | cons c2 u2 =>
          injection hs with h1 h2
          exact ⟨u2, ds, v, h2, hall, hlen6⟩

/-- `dict.fromkeys` deduplication: membership is unchanged (minus the
seen set), the result has no duplicates, and it is a sublist of the
input — first-seen order is preserved. -/
theorem dedupFirst_spec : ∀ (l seen : List (List Char)),
    (∀ x, x ∈ dedupFirst seen l ↔ x ∈ l ∧ x ∉ seen) ∧
    (dedupFirst seen l).Nodup ∧ (dedupFirst seen l).Sublist l := by
  intro l
  induction l with
  | nil =>
    intro seen
    exact ⟨fun x => by simp [dedupFirst], List.nodup_nil, List.Sublist.refl _⟩
  | cons y rest ih =>
    intro seen
    by_cases hy : y ∈ seen
    · rw [dedupFirst, if_pos hy]
      rcases ih seen with ⟨hmem, hnd, hsub⟩
      refine ⟨?_, hnd, hsub.cons y⟩
      intro x
      rw [hmem]
      constructor
      · rintro ⟨hx, hxs⟩
        exact ⟨List.mem_cons_of_mem _ hx, hxs⟩
      · rintro ⟨hx, hxs⟩
        rcases List.mem_cons.mp hx with h | h
        · exact absurd (h ▸ hy) hxs
        · exact ⟨h, hxs⟩
    · rw [dedupFirst, if_neg hy]
      rcases ih (y :: seen) with ⟨hmem, hnd, hsub⟩
      refine ⟨?_, ?_, hsub.cons₂ y⟩
      · intro x
        rw [List.mem_cons, hmem]
        constructor
        · rintro (h | ⟨hx, hxs⟩)
          · exact ⟨h ▸ List.mem_cons_self y rest, h ▸ hy⟩
          · exact ⟨List.mem_cons_of_mem _ hx, fun hc => hxs (List.mem_cons_of_mem _ hc)⟩
        · rintro ⟨hx, hxs⟩
          rcases List.mem_cons.mp hx with h | h
          · exact Or.inl h
          · by_cases hxy : x = y
            · exact Or.inl hxy
            · exact Or.inr ⟨h, fun hc => by
                rcases List.mem_cons.mp hc with h2 | h2
                · exact hxy h2
                · exact hxs h2⟩
      · rw [List.nodup_cons]
        refine ⟨fun hc => ?_, hnd⟩
        have := (hmem y).mp hc
        exact this.2 (List.mem_cons_self y seen)


/-- Every match of the detail-link pattern is an S followed by at
least six digits. -/
theorem findAllDetailIds_shape : ∀ (l : List Char), ∀ id ∈ findAllDetailIds l,
    ∃ ds, id = 'S' :: ds ∧ ds.all isDigitC = true ∧ 6 ≤ ds.length := by
  intro l
  induction l using findAllDetailIds.induct with
  | case1 =>
    intro id h
    simp [findAllDetailIds] at h
  | case2 c rest r1 hsp ds hlen ih =>
    intro id hid
    rw [findAllDetailIds] at hid
    split at hid
    · rename_i r1' h2
      rw [hsp] at h2
      injection h2 with h3
      subst h3
      rw [if_pos hlen] at hid
      rcases List.mem_cons.mp hid with h4 | h4
      · exact ⟨_, h4, List.all_takeWhile, hlen⟩
      · exact ih id h4
    · rename_i h2
      rw [hsp] at h2
      exact absurd h2 (by simp)
  | case3 c rest r1 hsp ds hlen ih =>
    intro id hid
    rw [findAllDetailIds] at hid
    split at hid
    · rename_i r1' h2
      rw [hsp] at h2
      injection h2 with h3
      subst h3
      rw [if_neg hlen] at hid
      exact ih id hid
    · rename_i h2
      rw [hsp] at h2
      exact absurd h2 (by simp)
  | case4 c rest hsp ih =>
    intro id hid
    rw [findAllDetailIds] at hid
    split at hid
    · rename_i r1' h2
      rw [hsp] at h2
      exact absurd h2 (by simp)
    · exact ih id hid

/-- Deduplication returns an empty list only on an empty list. -/
theorem dedupFirst_nil_iff (l : List (List Char)) : dedupFirst [] l = [] ↔ l = [] := by
  cases l with
  | nil => simp [dedupFirst]
  | cons x rest => simp [dedupFirst]

/-- C6, counterexample: the fixed pattern accepts only the prefix
letter S — a string consisting of the identifier-shaped "B1234567"
(letter prefix plus seven digits) yields no identifier, refuting "any
letter prefix". -/
theorem C6_counterexample : extract_id "B1234567".data = none := rfl

/-- C6, amended: identifiers are recognized by the fixed pattern
letter-S-then-6-or-more-digits.  `extract_id` succeeds exactly when the
input contains such an identifier, and anything it returns has that
shape; the search-candidate collector returns only identifiers of that
shape, without duplicates, in first-seen order (a sublist of the raw
match list, desktop page first, mobile page only when the desktop page
had no match), and deduplication drops no identifier. -/
theorem C6_id_pattern_amended :
    (∀ s : List Char, (extract_id s).isSome = true ↔
       ∃ u ds v, s = u ++ 'S' :: (ds ++ v) ∧ ds.all isDigitC = true ∧ 6 ≤ ds.length) ∧
    (∀ s id, extract_id s = some id →
       ∃ ds, id = 'S' :: ds ∧ ds.all isDigitC = true ∧ 6 ≤ ds.length) ∧
    (∀ d mo, (search_candidates_by_title d mo).Nodup) ∧
    (∀ d mo id, id ∈ search_candidates_by_title d mo →
       ∃ ds, id = 'S' :: ds ∧ ds.all isDigitC = true ∧ 6 ≤ ds.length) ∧
    (∀ d mo, (findAllDetailIds d ≠ [] →
        search_candidates_by_title d mo = dedupFirst [] (findAllDetailIds d)) ∧
      (findAllDetailIds d = [] →
        search_candidates_by_title d mo = dedupFirst [] (findAllDetailIds mo))) ∧
    (∀ l : List (List Char), (dedupFirst [] l).Sublist l ∧ (∀ x, x ∈ dedupFirst [] l ↔ x ∈ l)) := by
  have hmem : ∀ l : List (List Char), ∀ x, x ∈ dedupFirst [] l ↔ x ∈ l := by
    intro l x
    rw [(dedupFirst_spec l []).1 x]
    simp
  refine ⟨findSId_isSome_iff, findSId_some_shape, ?_, ?_, ?_, ?_⟩
  · intro d mo
    unfold search_candidates_by_title
    dsimp only
    split
    · exact (dedupFirst_spec _ _).2.1
    · exact (dedupFirst_spec _ _).2.1
  · intro d mo id hid
    unfold search_candidates_by_title at hid
    dsimp only at hid
    split at hid
    · exact findAllDetailIds_shape d id ((hmem _ id).mp hid)
    · exact findAllDetailIds_shape mo id ((hmem _ id).mp hid)
  · intro d mo
    constructor
    · intro hne
      unfold search_candidates_by_title
      dsimp only
      rw [if_pos]
      simp only [Bool.not_eq_true']
      rw [← Bool.not_eq_true, List.isEmpty_iff]
      intro hc
      exact hne ((dedupFirst_nil_iff _).mp hc)
    · intro hnil
      unfold search_candidates_by_title
      dsimp only
      rw [if_neg]
      simp [hnil, dedupFirst]
  · intro l
    exact ⟨(dedupFirst_spec l []).2.2, hmem l⟩

/-- C6, witness: the amended success criterion at a concrete string. -/
theorem C6_witness : (extract_id "xxS1234567yy".data).isSome = true :=
  (C6_id_pattern_amended.1 "xxS1234567yy".data).mpr
    ⟨"xx".data, "1234567".data, "yy".data, by decide, by decide, by decide⟩


/-- Dict assignment adds exactly one key. -/
theorem dinsert_keys (k : List Char) (v : PatchVal) (d : List (List Char × PatchVal))
    (x : List Char) :
    x ∈ (dinsert k v d).map Prod.fst ↔ x ∈ d.map Prod.fst ∨ x = k := by
  unfold dinsert
  split <;> rename_i hmem
  · have hkeys : (d.map fun p => if p.1 = k then (k, v) else p).map Prod.fst = d.map Prod.fst := by
      rw [List.map_map]
      apply List.map_congr_left
      intro p _
      by_cases hp : p.1 = k
      · simp [hp]
      · simp [hp]
    rw [hkeys]
    constructor
    · exact Or.inl
    · rintro (h | h)
      · exact h
      · subst h
        rcases List.any_eq_true.mp hmem with ⟨p, hp, hpk⟩
        rw [decide_eq_true_eq] at hpk
        rw [← hpk]
        exact List.mem_map_of_mem Prod.fst hp
  · have hsing : ([((k : List Char), (v : PatchVal))].map Prod.fst) = [k] := rfl
    rw [List.map_append, hsing]
    constructor
    · intro h
      rcases List.mem_append.mp h with h | h
      · exact Or.inl h
      · exact Or.inr (List.mem_singleton.mp h)
    · intro h
      rw [List.mem_append]
      rcases h with h | h
      · exact Or.inl h
      · exact Or.inr (List.mem_singleton.mpr h)

/-- The field loop writes only under the configured name. -/
theorem addField_keys (props : List (List Char × PType)) (name : List Char) (val : JVal)
    (patch : List (List Char × PatchVal)) (x : List Char)
    (h : x ∈ (addField props name val patch).map Prod.fst) :
    x ∈ patch.map Prod.fst ∨ x = name := by
  unfold addField at h
  split at h
  · split at h
    · exact Or.inl h
    · split at h
      · rw [dinsert_keys] at h; exact h
      · exact Or.inl h
  · exact Or.inl h

/-- The title write touches only the name of a title-typed property of
the live schema. -/
theorem titleStep_keys (props : List (List Char × PType)) (info : Info)
    (patch : List (List Char × PatchVal)) (x : List Char)
    (h : x ∈ (titleStep props info patch).map Prod.fst) :
    x ∈ patch.map Prod.fst ∨ ∃ tp ∈ props, tp.2 = PType.title ∧ x = tp.1 := by
  unfold titleStep at h
  split at h <;> rename_i heq
  · split at h
    · split at h
      · rw [dinsert_keys] at h
        rcases h with h | h
        · exact Or.inl h
        · refine Or.inr ⟨_, List.mem_of_find?_eq_some heq, ?_, h⟩
          have := List.find?_some heq
          rwa [decide_eq_true_eq] at this
      · exact Or.inl h
    · exact Or.inl h
  · exact Or.inl h

/-- The genre write touches only the genre property. -/
theorem genreStep_keys (cfg : Cfg) (gm : List (List Char × List Char))
    (props : List (List Char × PType)) (info : Info)
    (patch : List (List Char × PatchVal)) (x : List Char)
    (h : x ∈ (genreStep cfg gm props info patch).map Prod.fst) :
    x ∈ patch.map Prod.fst ∨ x = cfg.GENRE_PROP := by
  unfold genreStep at h
  split at h
  · split at h
    · split at h
      · split at h
        · rw [dinsert_keys] at h; exact h
        · exact Or.inl h
      · exact Or.inl h
    · exact Or.inl h
  · exact Or.inl h

/-- The status write touches only the status property. -/
theorem statusStep_keys (cfg : Cfg) (props : List (List Char × PType))
    (patch : List (List Char × PatchVal)) (x : List Char)
    (h : x ∈ (statusStep cfg props patch).map Prod.fst) :
    x ∈ patch.map Prod.fst ∨ x = cfg.STATUS_PROP := by
  unfold statusStep at h
  split at h
  · rw [dinsert_keys] at h; exact h
  · exact Or.inl h

/-- The request-flag clear touches only the request property. -/
theorem requestStep_keys (cfg : Cfg) (props : List (List Char × PType))
    (patch : List (List Char × PatchVal)) (x : List Char)
    (h : x ∈ (requestStep cfg props patch).map Prod.fst) :
    x ∈ patch.map Prod.fst ∨ x = cfg.REQUEST_PROP := by
  unfold requestStep at h
  split at h
  · rw [dinsert_keys] at h; exact h
  · exact Or.inl h

/-- On a schema with unique property names, the type lookup of a
present property returns its type. -/
theorem page_prop_type_of_mem (props : List (List Char × PType))
    (hnd : (props.map Prod.fst).Nodup) (p : List Char × PType) (hp : p ∈ props) :
    page_prop_type props p.1 = some p.2 := by
  induction props with
  | nil => simp at hp
  | cons q rest ih =>
    rw [List.map_cons, List.nodup_cons] at hnd
    rcases List.mem_cons.mp hp with h | h
    · subst h
      unfold page_prop_type
      rw [List.find?_cons_of_pos _ (by simp)]
      rfl
    · have hq : q.1 ≠ p.1 := by
        intro hc
        exact hnd.1 (hc ▸ List.mem_map_of_mem Prod.fst h)
      unfold page_prop_type
      rw [List.find?_cons_of_neg _ (by simpa using hq)]
      exact ih hnd.2 h

/-- C9: the reading-progress property is never part of the patch that
`update_page` assembles — for every schema (with unique property names,
the read-pages property present as a number, and the configured names
distinct as in the default configuration) and every metadata record,
so its destination value is unchanged by the row update. -/
theorem C9_read_pages_untouched (cfg : Cfg) (gm : List (List Char × List Char))
    (props_now : List (List Char × PType)) (info : Info)
    (hnd : (props_now.map Prod.fst).Nodup)
    (hnum : page_prop_type props_now cfg.READ_PAGES_PROP = some PType.number)
    (hd1 : cfg.READ_PAGES_PROP ≠ cfg.AUTHOR_PROP)
    (hd2 : cfg.READ_PAGES_PROP ≠ cfg.PUBLISHER_PROP)
    (hd3 : cfg.READ_PAGES_PROP ≠ cfg.PAGES_PROP)
    (hd4 : cfg.READ_PAGES_PROP ≠ cfg.KY_URL_PROP)
    (hd5 : cfg.READ_PAGES_PROP ≠ cfg.GENRE_PROP)
    (hd6 : cfg.READ_PAGES_PROP ≠ cfg.STATUS_PROP)
    (hd7 : cfg.READ_PAGES_PROP ≠ cfg.REQUEST_PROP) :
    cfg.READ_PAGES_PROP ∉ (update_page_patch cfg gm props_now info).map Prod.fst := by
  intro hmem
  unfold update_page_patch at hmem
  rcases requestStep_keys _ _ _ _ hmem with hmem | hx
  case inr => exact hd7 hx
  rcases statusStep_keys _ _ _ _ hmem with hmem | hx
  case inr => exact hd6 hx
  rcases genreStep_keys _ _ _ _ _ _ hmem with hmem | hx
  case inr => exact hd5 hx
  rcases addField_keys _ _ _ _ _ hmem with hmem | hx
  case inr => exact hd4 hx
  rcases addField_keys _ _ _ _ _ hmem with hmem | hx
  case inr => exact hd3 hx
  rcases addField_keys _ _ _ _ _ hmem with hmem | hx
  case inr => exact hd2 hx
  rcases addField_keys _ _ _ _ _ hmem with hmem | hx
  case inr => exact hd1 hx
  rcases titleStep_keys _ _ _ _ hmem with hmem | ⟨tp, htp, htitle, hx⟩
  case inl => simp at hmem
  have := page_prop_type_of_mem props_now hnd tp htp
  rw [← hx, hnum] at this
  rw [htitle] at this
  exact PType.noConfusion (Option.some.inj this)

/-- C9, witness: the default configuration against a concrete schema
and record. -/
theorem C9_witness :
    defaultCfg.READ_PAGES_PROP ∉
      (update_page_patch defaultCfg [] C9props C9info).map Prod.fst :=
  C9_read_pages_untouched defaultCfg [] C9props C9info (by decide) (by decide)
    (by decide) (by decide) (by decide) (by decide) (by decide) (by decide) (by decide)


/-- Scanning equation for the separator test when the head position
does not start a match. -/
theorem hasPipeSep_cons_eq (c : Char) (rest : List Char)
    (hx : ∀ tail, c = ' ' → rest = '|' :: ' ' :: tail → False) :
    hasPipeSep (c :: rest) = hasPipeSep rest := by
  rw [hasPipeSep.eq_def]
  split
  · rename_i tail heq
    injection heq with h1 h2
    exact (hx tail h1 h2).elim
  · rename_i c2 rest2 heq
    injection heq with h1 h2
    rw [h2]
  · rename_i heq
    exact absurd heq (by simp)

/-- Scanning equation for the separator split when the head position
does not start a match. -/
theorem takeBeforePipe_cons_eq (c : Char) (rest : List Char)
    (hx : ∀ tail, c = ' ' → rest = '|' :: ' ' :: tail → False) :
    takeBeforePipe (c :: rest) = c :: takeBeforePipe rest := by
  rw [takeBeforePipe.eq_def]
  split
  · rename_i tail heq
    injection heq with h1 h2
    exact (hx tail h1 h2).elim
  · rename_i c2 rest2 heq
    injection heq with h1 h2
    rw [h1, h2]
  · rename_i heq
    exact absurd heq (by simp)

/-- A separator occurrence survives appending on the right. -/
theorem hasPipeSep_append_left : ∀ u w : List Char,
    hasPipeSep u = true → hasPipeSep (u ++ w) = true := by
  intro u w
  induction u using hasPipeSep.induct with
  | case1 tail =>
    intro _
    rfl
  | case2 c rest hx ih =>
    rw [hasPipeSep_cons_eq c rest hx]
    intro h
    rw [List.cons_append]
    by_cases hx2 : ∀ tail, c = ' ' → rest ++ w = '|' :: ' ' :: tail → False
    · rw [hasPipeSep_cons_eq c (rest ++ w) hx2]
      exact ih h
    · push_neg at hx2
      rcases hx2 with ⟨tail, hc, hr⟩
      rw [hc, hr.1]
      rfl
  | case3 =>
    intro h
    exact absurd h (by simp [hasPipeSep])

/-- A separator occurrence survives prepending one character. -/
theorem hasPipeSep_cons_mono (c : Char) (l : List Char) (h : hasPipeSep l = true) :
    hasPipeSep (c :: l) = true := by
  by_cases hx : ∀ tail, c = ' ' → l = '|' :: ' ' :: tail → False
  · rw [hasPipeSep_cons_eq c l hx]
    exact h
  · push_neg at hx
    rcases hx with ⟨tail, hc, hr⟩
    rw [hc, hr.1]
    rfl

/-- A separator occurrence survives prepending on the left. -/
theorem hasPipeSep_append_right : ∀ u w : List Char,
    hasPipeSep w = true → hasPipeSep (u ++ w) = true := by
  intro u w h
  induction u with
  | nil => exact h
  | cons c rest ih => exact hasPipeSep_cons_mono c _ ih

/-- The segment before the first separator is a prefix of the input
and contains no separator itself. -/
theorem takeBeforePipe_spec : ∀ l : List Char,
    (∃ w, l = takeBeforePipe l ++ w) ∧ hasPipeSep (takeBeforePipe l) = false := by
  intro l
  induction l using takeBeforePipe.induct with
  | case1 tail =>
    constructor
    · exact ⟨' ' :: '|' :: ' ' :: tail, rfl⟩
    · rfl
  | case2 c rest hx ih =>
    rw [takeBeforePipe_cons_eq c rest hx]
    rcases ih with ⟨⟨w, hw⟩, hnp⟩
    constructor
    · exact ⟨w, by rw [List.cons_append, ← hw]⟩
    · by_cases hx2 : ∀ tail, c = ' ' → takeBeforePipe rest = '|' :: ' ' :: tail → False
      · rw [hasPipeSep_cons_eq c _ hx2]
        exact hnp
      · push_neg at hx2
        rcases hx2 with ⟨tail, hc, hr⟩
        exfalso
        apply hx (tail ++ w) hc
        rw [hw, hr.1]
        rfl
  | case3 =>
    exact ⟨⟨[], rfl⟩, rfl⟩

/-- Every whitespace character that whitespace collapsing emits is a
plain space. -/
theorem collapseAux_mem_sp : ∀ (l : List Char) (b : Bool),
    ∀ c ∈ collapseAux b l, isWs c = true → c = ' ' := by
  intro l
  induction l with
  | nil => intro b c hc; simp [collapseAux] at hc
  | cons d rest ih =>
    intro b c hc hws
    rw [collapseAux] at hc
    split at hc
    · split at hc
      · exact ih true c hc hws
      · rcases List.mem_cons.mp hc with h | h
        · exact h
        · exact ih true c h hws
    · rcases List.mem_cons.mp hc with h | h
      · rename_i hd
        exact absurd (h ▸ hws) (by simp [hd])
      · exact ih false c h hws

/-- In whitespace-run state the collapser never emits a leading
whitespace character. -/
theorem collapseAux_true_head : ∀ (l : List Char) (c : Char),
    (collapseAux true l).head? = some c → isWs c = false := by
  intro l
  induction l with
  | nil => intro c h; simp [collapseAux] at h
  | cons d rest ih =>
    intro c h
    rw [collapseAux] at h
    split at h
    · exact ih c h
    · rename_i hd
      rw [List.head?_cons, Option.some.injEq] at h
      rw [← h]
      simpa using hd

/-- Whitespace collapsing never emits two adjacent whitespace
characters. -/
theorem collapseAux_chain : ∀ (l : List Char) (b : Bool),
    List.Chain' (fun a b2 => ¬(isWs a = true ∧ isWs b2 = true)) (collapseAux b l) := by
  intro l
  induction l with
  | nil => intro b; simp [collapseAux]
  | cons d rest ih =>
    intro b
    rw [collapseAux]
    split
    · split
      · exact ih true
      · rw [List.chain'_cons']
        refine ⟨?_, ih true⟩
        intro y hy
        have := collapseAux_true_head rest y hy
        simp [this]
    · rw [List.chain'_cons']
      refine ⟨?_, ih false⟩
      rename_i hd
      intro y hy
      simp [hd]

/-- The two collapser states agree on an input with a non-whitespace
head. -/
theorem collapseAux_true_false (l : List Char)
    (h : ∀ c, l.head? = some c → isWs c = false) :
    collapseAux true l = collapseAux false l := by
  cases l with
  | nil => rfl
  | cons d rest =>
    have hd := h d rfl
    rw [collapseAux, collapseAux]
    rw [if_neg (by simp [hd]), if_neg (by simp [hd])]

/-- Whitespace collapsing fixes a string whose whitespace is all plain
spaces with no two adjacent. -/
theorem collapseAux_id : ∀ l : List Char,
    (∀ c ∈ l, isWs c = true → c = ' ') →
    List.Chain' (fun a b2 => ¬(isWs a = true ∧ isWs b2 = true)) l →
    collapseAux false l = l := by
  intro l
  induction l with
  | nil => intro _ _; rfl
  | cons d rest ih =>
    intro hmem hch
    rw [collapseAux]
    by_cases hd : isWs d = true
    · rw [if_pos hd]
      have hdsp : d = ' ' := hmem d (List.mem_cons_self d rest) hd
      have hhead : ∀ c, rest.head? = some c → isWs c = false := by
        intro c hc
        rcases List.chain'_cons'.mp hch with ⟨hpair, _⟩
        have := hpair c hc
        rw [hd] at this
        simp at this
        simp [this]
      rw [collapseAux_true_false rest hhead]
      rw [ih (fun c hc => hmem c (List.mem_cons_of_mem d hc)) hch.tail]
      rw [hdsp]
      simp
    · rw [if_neg hd]
      rw [ih (fun c hc => hmem c (List.mem_cons_of_mem d hc)) hch.tail]

/-- Dropping trailing whitespace yields a prefix. -/
theorem dtw_prefix : ∀ l : List Char, ∃ w, l = dropTrailingWs l ++ w := by
  intro l
  induction l with
  | nil => exact ⟨[], rfl⟩
  | cons c rest ih =>
    rw [dropTrailingWs]
    split
    · exact ⟨c :: rest, rfl⟩
    · rcases ih with ⟨w, hw⟩
      exact ⟨w, by rw [List.cons_append, ← hw]⟩

/-- After dropping trailing whitespace, the last character is not
whitespace. -/
theorem dtw_last : ∀ (l : List Char) (c : Char),
    (dropTrailingWs l).getLast? = some c → isWs c = false := by
  intro l
  induction l with
  | nil => intro c h; simp [dropTrailingWs] at h
  | cons d rest ih =>
    intro c h
    rw [dropTrailingWs] at h
    split at h
    · simp at h
    · rename_i hcond
      push_neg at hcond
      cases hdt : dropTrailingWs rest with
      | nil =>
        have hd : isWs d = false := by simpa using hcond hdt
        rw [hdt] at h
        simp only [List.getLast?_singleton, Option.some.injEq] at h
        rw [← h]
        exact hd
      | cons e r =>
        rw [hdt, List.getLast?_cons_cons] at h
        apply ih
        rw [hdt]
        exact h

/-- Dropping trailing whitespace fixes a string that does not end in
whitespace. -/
theorem dtw_id : ∀ l : List Char,
    (∀ c, l.getLast? = some c → isWs c = false) → dropTrailingWs l = l := by
  intro l
  induction l with
  | nil => intro _; rfl
  | cons d rest ih =>
    intro h
    rw [dropTrailingWs]
    cases hr : rest with
    | nil =>
      have hd := h d (by rw [hr]; simp)
      simp [dropTrailingWs, hd]
    | cons e rest2 =>
      rw [hr] at ih
      have hrest : dropTrailingWs (e :: rest2) = e :: rest2 := by
        apply ih
        intro c hc
        apply h
        rw [hr, List.getLast?_cons_cons]
        exact hc
      rw [if_neg (by rw [hrest]; simp)]
      rw [hrest]

/-- Dropping trailing whitespace preserves the head. -/
theorem dtw_head : ∀ (l : List Char) (c : Char),
    (dropTrailingWs l).head? = some c → l.head? = some c := by
  intro l c h
  rcases dtw_prefix l with ⟨w, hw⟩
  cases hd : dropTrailingWs l with
  | nil => rw [hd] at h; simp at h
  | cons e rest =>
    rw [hd] at h hw
    rw [List.head?_cons, Option.some.injEq] at h
    rw [hw, List.cons_append, List.head?_cons, h]

/-- A stripped string does not start with whitespace. -/
theorem stripWs_head (l : List Char) (c : Char) (h : (stripWs l).head? = some c) :
    isWs c = false := by
  unfold stripWs at h
  have h2 := dtw_head _ _ h
  have h3 := List.head?_dropWhile_not isWs l
  rw [h2] at h3
  simpa using h3

/-- A stripped string does not end with whitespace. -/
theorem stripWs_last (l : List Char) (c : Char) (h : (stripWs l).getLast? = some c) :
    isWs c = false := dtw_last _ _ h

/-- The stripped string sits contiguously inside the input. -/
theorem stripWs_decomp (l : List Char) : ∃ u w, l = u ++ stripWs l ++ w := by
  unfold stripWs
  rcases dtw_prefix (l.dropWhile isWs) with ⟨w, hw⟩
  refine ⟨l.takeWhile isWs, w, ?_⟩
  rw [List.append_assoc, ← hw, List.takeWhile_append_dropWhile]

/-- Stripping fixes a string that neither starts nor ends with
whitespace. -/
theorem stripWs_id (l : List Char)
    (hh : ∀ c, l.head? = some c → isWs c = false)
    (hl : ∀ c, l.getLast? = some c → isWs c = false) : stripWs l = l := by
  unfold stripWs
  have hdw : l.dropWhile isWs = l := by
    cases l with
    | nil => rfl
    | cons d rest => exact List.dropWhile_cons_of_neg (by simp [hh d rfl])
  rw [hdw]
  exact dtw_id l hl

/-- Membership transfers out of a contiguous segment. -/
theorem mem_of_decomp {l u m w : List Char} (h : l = u ++ m ++ w) :
    ∀ c ∈ m, c ∈ l := by
  intro c hc
  rw [h]
  exact List.mem_append_left _ (List.mem_append_right _ hc)

/-- An adjacency invariant restricts to a contiguous segment. -/
theorem chain_of_decomp {R : Char → Char → Prop} {l u m w : List Char}
    (h : l = u ++ m ++ w) (hc : List.Chain' R l) : List.Chain' R m := by
  rw [h] at hc
  exact ((List.chain'_append.mp ((List.chain'_append.mp hc).1)).2).1

/-- Separator-freeness restricts to a contiguous segment. -/
theorem noPipe_of_decomp {l u m w : List Char} (h : l = u ++ m ++ w)
    (hp : hasPipeSep l = false) : hasPipeSep m = false := by
  by_contra hc
  rw [Bool.not_eq_false] at hc
  have h1 := hasPipeSep_append_left m w hc
  have h2 := hasPipeSep_append_right u (m ++ w) h1
  rw [← List.append_assoc, ← h] at h2
  rw [h2] at hp
  exact Bool.noConfusion hp

/-- The brand-suffix pattern absorbs leading whitespace: prepending a
whitespace character does not change whether it matches. -/
theorem isBrandSuffix_cons_ws (c : Char) (l : List Char) (h : isWs c = true) :
    isBrandSuffix (c :: l) = isBrandSuffix l := by
  unfold isBrandSuffix
  rw [List.dropWhile_cons_of_pos h]

/-- When the scan finds a match, the input splits into the returned
prefix and a matching suffix. -/
theorem brandStripAux_decomp : ∀ (l pre : List Char), brandStripAux l = some pre →
    ∃ suf, l = pre ++ suf ∧ isBrandSuffix suf = true := by
  intro l
  induction l with
  | nil => intro pre h; simp [brandStripAux] at h
  | cons c rest ih =>
    intro pre h
    rw [brandStripAux] at h
    split at h
    · rename_i hbs
      rw [Option.some.injEq] at h
      subst h
      exact ⟨c :: rest, rfl, hbs⟩
    · rename_i hbs
      cases haux : brandStripAux rest with
      | none => rw [haux] at h; exact Option.noConfusion h
      | some pre2 =>
        rw [haux] at h
        rw [Option.some.injEq] at h
        subst h
        rcases ih pre2 haux with ⟨suf, hsuf, hbs2⟩
        exact ⟨suf, by rw [List.cons_append, ← hsuf], hbs2⟩

/-- A scan returning the empty prefix means the whole input matches. -/
theorem brandStripAux_some_nil : ∀ l : List Char, brandStripAux l = some [] →
    isBrandSuffix l = true := by
  intro l h
  cases l with
  | nil => simp [brandStripAux] at h
  | cons c rest =>
    rw [brandStripAux] at h
    split at h
    · assumption
    · cases haux : brandStripAux rest with
      | none => rw [haux] at h; exact Option.noConfusion h
      | some pre2 =>
        rw [haux, Option.some.injEq] at h
        exact List.noConfusion h

/-- The prefix kept by brand stripping never ends in whitespace: the
pattern starts with optional whitespace, so a whitespace character just
before the match would itself start an earlier match, contradicting
leftmostness. -/
theorem brandStripAux_last : ∀ (l pre : List Char), brandStripAux l = some pre →
    ∀ c, pre.getLast? = some c → isWs c = false := by
  intro l
  induction l with
  | nil => intro pre h; simp [brandStripAux] at h
  | cons c rest ih =>
    intro pre h d hd
    rw [brandStripAux] at h
    split at h
    · rw [Option.some.injEq] at h
      subst h
      simp at hd
    · rename_i hbs
      cases haux : brandStripAux rest with
      | none => rw [haux] at h; exact Option.noConfusion h
      | some pre2 =>
        rw [haux, Option.some.injEq] at h
        subst h
        cases hp2 : pre2 with
        | nil =>
          rw [hp2] at hd
          simp only [List.getLast?_singleton, Option.some.injEq] at hd
          rw [← hd]
          rcases Bool.eq_false_or_eq_true (isWs c) with hws | hws
          · exfalso
            have hbs2 := brandStripAux_some_nil rest (hp2 ▸ haux)
            rw [← isBrandSuffix_cons_ws c rest hws] at hbs2
            exact hbs hbs2
          · exact hws
        | cons e r =>
          rw [hp2] at hd
          rw [List.getLast?_cons_cons] at hd
          exact ih pre2 haux d (by rw [hp2]; exact hd)

/-- Every output of `clean_book_title` is fully normalized: its
whitespace characters are single plain spaces, it neither starts nor
ends with whitespace, and it contains no `" | "` separator. -/
theorem cleanL_norm (t : List Char) :
    (∀ c ∈ cleanL t, isWs c = true → c = ' ') ∧
    List.Chain' (fun a b => ¬(isWs a = true ∧ isWs b = true)) (cleanL t) ∧
    (∀ c, (cleanL t).head? = some c → isWs c = false) ∧
    (∀ c, (cleanL t).getLast? = some c → isWs c = false) ∧
    hasPipeSep (cleanL t) = false := by
  by_cases hnil : t = []
  · subst hnil
    refine ⟨?_, ?_, ?_, ?_, rfl⟩ <;> simp [cleanL]
  · rw [cleanL, if_neg hnil]
    dsimp only
    set t1 := stripWs (collapseRuns t) with ht1
    have ht1mem : ∀ c ∈ t1, isWs c = true → c = ' ' := by
      intro c hc hws
      rcases stripWs_decomp (collapseRuns t) with ⟨u, w, hdec⟩
      exact collapseAux_mem_sp t false c (mem_of_decomp hdec c hc) hws
    have ht1chain : List.Chain' (fun a b => ¬(isWs a = true ∧ isWs b = true)) t1 := by
      rcases stripWs_decomp (collapseRuns t) with ⟨u, w, hdec⟩
      exact chain_of_decomp hdec (collapseAux_chain t false)
    have ht1head : ∀ c, t1.head? = some c → isWs c = false := fun c h => stripWs_head _ c h
    have ht1last : ∀ c, t1.getLast? = some c → isWs c = false := fun c h => stripWs_last _ c h
    set t2 := if hasPipeSep t1 = true then stripWs (takeBeforePipe t1) else t1 with ht2
    have ht2props : (∀ c ∈ t2, isWs c = true → c = ' ') ∧
        List.Chain' (fun a b => ¬(isWs a = true ∧ isWs b = true)) t2 ∧
        (∀ c, t2.head? = some c → isWs c = false) ∧
        (∀ c, t2.getLast? = some c → isWs c = false) ∧
        hasPipeSep t2 = false := by
      rw [ht2]
      cases hpipe : hasPipeSep t1 with
      | false =>
        simp only [Bool.false_eq_true, if_false, ite_false]
        exact ⟨ht1mem, ht1chain, ht1head, ht1last, hpipe⟩
      | true =>
        simp only [if_true, ite_true]
        rcases takeBeforePipe_spec t1 with ⟨⟨w, hw⟩, hnp⟩
        rcases stripWs_decomp (takeBeforePipe t1) with ⟨u2, w2, hdec2⟩
        have hdecfull : t1 = ([] : List Char) ++ takeBeforePipe t1 ++ w := hw
        refine ⟨?_, ?_, fun c h => stripWs_head _ c h, fun c h => stripWs_last _ c h, ?_⟩
        · intro c hc hws
          exact ht1mem c (mem_of_decomp hdecfull c (mem_of_decomp hdec2 c hc)) hws
        · exact chain_of_decomp hdec2 (chain_of_decomp hdecfull ht1chain)
        · exact noPipe_of_decomp hdec2 hnp
    rcases ht2props with ⟨h2mem, h2chain, h2head, h2last, h2np⟩
    cases haux : brandStripAux t2 with
    | none =>
      unfold brandStrip
      rw [haux]
      exact ⟨h2mem, h2chain, h2head, h2last, h2np⟩
    | some pre =>
      unfold brandStrip
      rw [haux]
      rcases brandStripAux_decomp t2 pre haux with ⟨suf, hsuf, _⟩
      have hdec : t2 = ([] : List Char) ++ pre ++ suf := hsuf
      refine ⟨?_, ?_, ?_, ?_, ?_⟩
      · intro c hc hws
        exact h2mem c (mem_of_decomp hdec c hc) hws
      · exact chain_of_decomp hdec h2chain
      · intro c hc
        apply h2head c
        cases hpre : pre with
        | nil => rw [hpre] at hc; exact Option.noConfusion hc
        | cons e r =>
          rw [hpre] at hc
          rw [hsuf, hpre, List.cons_append, List.head?_cons]
          rw [List.head?_cons] at hc
          exact hc
      · exact brandStripAux_last t2 pre haux
      · exact noPipe_of_decomp hdec h2np

/-- C4, counterexample: `clean_book_title` is not idempotent — on
"X - 교보문고 - 교보문고" one application strips only the final
separator-plus-brand suffix (the regex is anchored at the end of the
string, so the earlier suffix cannot match in the same pass), and a
second application strips again. -/
theorem C4_counterexample :
    cleanL (cleanL "X - 교보문고 - 교보문고".data) ≠ cleanL "X - 교보문고 - 교보문고".data := by
  decide

/-- C4, amended: `clean_book_title` is idempotent on every input whose
cleaned form does not itself end with a separator-plus-brand suffix;
the brand-stripping pass is the only non-idempotent stage. -/
theorem C4_cleanL_idem (t : List Char) (h : brandStripAux (cleanL t) = none) :
    cleanL (cleanL t) = cleanL t := by
  rcases cleanL_norm t with ⟨hmem, hch, hh, hl, hnp⟩
  by_cases hnil : cleanL t = []
  · rw [hnil]
    rfl
  · rw [cleanL, if_neg hnil]
    dsimp only
    have hcol : collapseRuns (cleanL t) = cleanL t := collapseAux_id _ hmem hch
    rw [hcol]
    have hstr : stripWs (cleanL t) = cleanL t := stripWs_id _ hh hl
    rw [hstr, hnp]
    simp only [Bool.false_eq_true, if_false, ite_false]
    unfold brandStrip
    rw [h]

/-- C4, witness: the amended theorem at a concrete title with no brand
suffix. -/
theorem C4_witness : cleanL (cleanL "Hello World".data) = cleanL "Hello World".data :=
  C4_cleanL_idem "Hello World".data (by decide)

end Kyobo
